import Mathlib

set_option allowUnsafeReducibility true

attribute [local semireducible] Rat.add Rat.sub Rat.mul Rat.inv

/-!
# Verification of the DocumentArray matching engine (`neural_ops.py`)

This file gives a shallow embedding of the nearest-neighbour matching engine
of `jina/types/arrays/neural_ops.py`:

* `matchInMem`  models `DocumentArrayNeuralOpsMixin._match` (in-memory matcher),
* `matchOnline` models `DocumentArrayNeuralOpsMixin._match_online` (batched matcher),
* `matchOp`     models `DocumentArrayNeuralOpsMixin.match` (validation, metric
  dispatch, matcher selection, and match assembly).

Embeddings are `List ℚ`; distance values are exact rationals, and the
`np.inf` initialisation of the online matcher's running best-k arrays is
modelled by `⊤ : WithTop ℚ`.  Mutation of the source records' match lists is
modelled functionally: `matchOp` returns the updated source collection, or an
`Except.error` for the `ValueError`/`TypeError` raised by the Python code.

The helpers `top_k`, `minmax_normalize` and `update_rows_x_mat_best` live in
`jina/math/helper.py`, which is not part of the sources at hand; they are
modelled from the specification (§4.2 Top-K Selector, §4.3 Score Normalizer,
§4.5 step 4 merge), as noted at each definition.

Indexing a collection out of range raises `IndexError` in Python; the model
totalises those accesses with an explicit default, and the theorems carry
shape hypotheses under which the default is never consulted.
-/

namespace JinaMatch

/-! ## Ordered value-index pairs

The Top-K Selector contract (spec §4.2) sorts each row ascending by value,
ties broken by original column order.  A stable sort by value on pairs that
carry distinct column indices is the same as sorting by the lexicographic
order on (value, index); `leP` is that order and `sortP` the sort.
-/

variable {α : Type} [LinearOrder α] {β : Type} [LinearOrder β]

/-- Lexicographic comparison on (value, column-index) pairs. -/
def leP (p q : α × ℕ) : Prop :=
  p.1 < q.1 ∨ (p.1 = q.1 ∧ p.2 ≤ q.2)

instance lePDecidable : DecidableRel (leP (α := α)) := fun _ _ =>
  inferInstanceAs (Decidable (_ ∨ _))

instance lePTotal : IsTotal (α × ℕ) leP := by
  constructor
  intro p q
  rcases lt_trichotomy p.1 q.1 with h | h | h
  · exact Or.inl (Or.inl h)
  · rcases le_total p.2 q.2 with h2 | h2
    · exact Or.inl (Or.inr ⟨h, h2⟩)
    · exact Or.inr (Or.inr ⟨h.symm, h2⟩)
  · exact Or.inr (Or.inl h)

instance lePTrans : IsTrans (α × ℕ) leP := by
  constructor
  rintro p q s (h | ⟨h, h2⟩) (h' | ⟨h', h2'⟩)
  · exact Or.inl (h.trans h')
  · exact Or.inl (h'.symm ▸ h)
  · exact Or.inl (h ▸ h')
  · exact Or.inr ⟨h.trans h', h2.trans h2'⟩

instance lePAntisymm : IsAntisymm (α × ℕ) leP := by
  constructor
  rintro p q (h | ⟨h, h2⟩) (h' | ⟨h', h2'⟩)
  · exact absurd h' (lt_asymm h)
  · exact absurd h (h'.symm ▸ lt_irrefl _)
  · exact absurd h' (h.symm ▸ lt_irrefl _)
  · exact Prod.ext h (le_antisymm h2 h2')

instance lePRefl : IsRefl (α × ℕ) leP :=
  ⟨fun _ => Or.inr ⟨rfl, le_refl _⟩⟩

/-- Sort a list of (value, index) pairs ascending by value, ties by index. -/
def sortP : List (α × ℕ) → List (α × ℕ) :=
  List.insertionSort leP

/-! ## The data model -/

/-- Distance values: rationals extended with `+∞` (`np.inf`). -/
abbrev Val : Type := WithTop ℚ

/-- A stacked embedding matrix (list of row vectors). -/
abbrev Mat : Type := List (List ℚ)

/-- Pair the entries of a distance row with their column indices, starting
at column `n` (value first). -/
def pairsFrom (n : ℕ) : List ℚ → List (ℚ × ℕ)
  | [] => []
  | a :: l => (a, n) :: pairsFrom (n + 1) l

/-- Pair each entry of a distance row with its column index (value first). -/
def pairsOf (row : List ℚ) : List (ℚ × ℕ) :=
  pairsFrom 0 row

/-- Modelled from the spec: `top_k` (`jina/math/helper.py` is not among the
sources).  Per §4.2 it returns, per row, the `k` smallest values with their
column indices, ascending by value, ties broken by original column order
(stable), with `k` clamped to the row length. -/
def topkRow (k : ℕ) (row : List ℚ) : List (ℚ × ℕ) :=
  (sortP (pairsOf row)).take k

/-- `np.min` over a distance row (rows are non-empty whenever consulted). -/
def rowMin (row : List ℚ) : ℚ :=
  match row with
  | [] => 0
  | a :: t => t.foldl min a

/-- `np.max` over a distance row. -/
def rowMax (row : List ℚ) : ℚ :=
  match row with
  | [] => 0
  | a :: t => t.foldl max a

/-- Modelled from the spec: `minmax_normalize` (`jina/math/helper.py` is not
among the sources).  Per §4.3 it maps `v` linearly from the observed range
into the target range; a degenerate observed range maps to the low end of
the target range. -/
def minmaxN (t : ℚ × ℚ) (obs : ℚ × ℚ) (v : ℚ) : ℚ :=
  if obs.2 = obs.1 then t.1 else t.1 + (v - obs.1) * (t.2 - t.1) / (obs.2 - obs.1)

/-- Observed range computed from the values themselves (§4.3: used when no
explicit observed range is supplied, as in the online path). -/
def obsOf (vals : List ℚ) : ℚ × ℚ := (rowMin vals, rowMax vals)

/-! ## The matchers -/

/-- Model of `_match` (in-memory matcher, lines 164-203): full distance
matrix, top-k with `k = min(limit, len(darray))`, then optional
normalization of the trimmed distances using the pre-trim row min/max.
The sparse and dense branches of the source compute the same values and are
modelled uniformly. -/
def matchInMem (cdist : Mat → Mat → Mat) (xs ys : Mat) (lim : ℕ)
    (norm : Option (ℚ × ℚ)) : List (List (ℚ × ℕ)) :=
  let dists := cdist xs ys
  let k := min lim ys.length
  dists.map (fun drow =>
    let t := topkRow k drow
    match norm with
    | none => t
    | some tr => t.map (fun p => (minmaxN tr (rowMin drow, rowMax drow) p.1, p.2)))

/-- The (slice, start-offset) sequence produced by `batch_generator`
(`for i in range(0, len(y_darray), n_batch)`), by fuelled recursion. -/
def batchAux {γ : Type} (B : ℕ) : ℕ → ℕ → List γ → List (List γ × ℕ)
  | 0, _, _ => []
  | _ + 1, _, [] => []
  | fuel + 1, off, x :: l =>
    ((x :: l).take B, off) :: batchAux B fuel (off + B) ((x :: l).drop B)

/-- All batches of `l` of size `B` with their start offsets. -/
def batchesOf {γ : Type} (B : ℕ) (l : List γ) : List (List γ × ℕ) :=
  batchAux B l.length 0 l

/-- Lift a finite (value, index) pair into the `WithTop` value domain,
shifting its column index by the batch start offset
(`inds = y_batch_start_pos + inds`). -/
def liftShift (off : ℕ) (p : ℚ × ℕ) : Val × ℕ :=
  (((p.1 : ℚ) : Val), p.2 + off)

/-- Lift a finite (value, index) pair into the `WithTop` value domain. -/
def liftPair (p : ℚ × ℕ) : Val × ℕ :=
  (((p.1 : ℚ) : Val), p.2)

/-- Per-batch per-row candidate list of the online matcher: chunk top-k with
`k = limit`, optional per-chunk normalization computed from the trimmed
values themselves, indices shifted by the batch offset. -/
def chunkContrib (lim : ℕ) (norm : Option (ℚ × ℚ)) (off : ℕ) (drow : List ℚ) :
    List (Val × ℕ) :=
  let t := topkRow lim drow
  let t2 := match norm with
    | none => t
    | some tr => t.map (fun p : ℚ × ℕ => (minmaxN tr (obsOf (t.map Prod.fst)) p.1, p.2))
  t2.map (liftShift off)

/-- Modelled from the spec: `update_rows_x_mat_best` (`jina/math/helper.py`
is not among the sources).  Per §4.5 step 4 it re-selects, per row, the
`lim` smallest candidates from the concatenation of the new batch
candidates with the running best. -/
def updateBest (lim : ℕ) (newRow bestRow : List (Val × ℕ)) : List (Val × ℕ) :=
  (sortP (newRow ++ bestRow)).take lim

/-- Model of `_match_online` (lines 205-255): running best-k initialised to
`(+∞, 0)`, batch loop over target slices, per-batch top-k plus optional
per-chunk normalization, merge, and a final per-row ascending sort
(`np.argsort` plus `take_along_axis`). -/
def matchOnline (cdist : Mat → Mat → Mat) (xs ys : Mat) (lim : ℕ)
    (norm : Option (ℚ × ℚ)) (B : ℕ) : List (List (Val × ℕ)) :=
  let init : List (List (Val × ℕ)) :=
    List.replicate xs.length (List.replicate lim ((⊤ : Val), 0))
  let final := (batchesOf B ys).foldl
    (fun best yb =>
      let rows := (cdist xs yb.1).map (chunkContrib lim norm yb.2)
      List.zipWith (updateBest lim) rows best)
    init
  final.map sortP

/-! ## Documents and match assembly -/

/-- A Document: identity, dense embedding (empty list = no embedding),
named scores, and the match list.  Scores live in `Val` because the online
path can attach `+∞` placeholder scores. -/
inductive Doc : Type where
  | mk (id : String) (emb : List ℚ) (scores : List (String × Val)) (ms : List Doc)

def Doc.id : Doc → String
  | .mk i _ _ _ => i

def Doc.emb : Doc → List ℚ
  | .mk _ e _ _ => e

def Doc.scores : Doc → List (String × Val)
  | .mk _ _ s _ => s

def Doc.matchList : Doc → List Doc
  | .mk _ _ _ m => m

/-- `Document(d, copy=True)` followed by `d.pop('matches')` (lines 156-157). -/
def Doc.popMatches : Doc → Doc
  | .mk i e s _ => .mk i e s []

/-- `_q.matches.append(d, scores={metric_name: dist})`: the attached copy
carries the named score (line 159). -/
def Doc.withScore (d : Doc) (nm : String) (v : Val) : Doc :=
  .mk d.id d.emb ((nm, v) :: d.scores) d.matchList

/-- Rebuild a source record with a new match list (the only mutation the
engine performs). -/
def Doc.setMatches (d : Doc) (ms : List Doc) : Doc :=
  .mk d.id d.emb d.scores ms

/-- Default document for (unreachable) out-of-range collection access. -/
def dfltDoc : Doc := .mk "" [] [] []

/-- The id sequence of a collection (`d.id in lhv` membership tests). -/
def ids (ds : List Doc) : List String := ds.map Doc.id

/-- `Document(id=_get_id(rhv, _id))` when `only_id`, otherwise
`rhv[int(_id)]` (lines 150-153). -/
def resolveDoc (rhv : List Doc) (onlyId : Bool) (i : ℕ) : Doc :=
  if onlyId then Doc.mk (Doc.id (rhv.getD i dfltDoc)) [] [] []
  else rhv.getD i dfltDoc

/-- Cycle prevention (lines 155-157): a candidate whose id is also present
in the source collection is attached as a detached copy with the match list
cleared. -/
def detachIfShared (lhvIds : List String) (d : Doc) : Doc :=
  if d.id ∈ lhvIds then d.popMatches else d

/-- The per-record assembly loop of `match` (lines 143-162): iterate the
(dist, idx) row in order, skip self-matches when requested, attach scored
matches, and stop once `num_matches` reaches the stop limit. -/
def buildMatches (lhvIds : List String) (rhv : List Doc) (mName : String)
    (stop : ℕ) (excludeSelf onlyId : Bool) (q : Doc) :
    List (Val × ℕ) → ℕ → List Doc
  | [], _ => []
  | (dv, i) :: rest, num =>
    let d := detachIfShared lhvIds (resolveDoc rhv onlyId i)
    if d.id = q.id ∧ excludeSelf then
      buildMatches lhvIds rhv mName stop excludeSelf onlyId q rest num
    else
      let d2 := d.withScore mName dv
      if num + 1 ≥ stop then [d2]
      else d2 :: buildMatches lhvIds rhv mName stop excludeSelf onlyId q rest (num + 1)

/-! ## The `match` entry point -/

/-- The `metric` argument: a metric name, a callable (with its `__name__`),
or a value of neither type. -/
inductive MetricArg : Type where
  | name (s : String)
  | fn (fname : String) (f : Mat → Mat → Mat)
  | invalid

/-- `limit`/`batch_size` validation: absent or strictly positive. -/
def validatePos (v : Option ℤ) : Bool :=
  match v with
  | none => true
  | some l => decide (0 < l)

/-- `_limit = len(rhv) if limit is None else (limit + (1 if exclude_self
else 0))` (line 119). -/
def eLimitOf (limN : Option ℕ) (rlen : ℕ) (excludeSelf : Bool) : ℕ :=
  match limN with
  | none => rlen
  | some l => l + (if excludeSelf then 1 else 0)

/-- `limit or _limit` at the assembly stop test (line 161). -/
def stopOf (limN : Option ℕ) (rlen : ℕ) (excludeSelf : Bool) : ℕ :=
  match limN with
  | some l => l
  | none => eLimitOf limN rlen excludeSelf

/-- The (dist, idx) rows produced by the selected matcher (lines 121-128). -/
def matcherRows (cdist : Mat → Mat → Mat) (xs ys : Mat) (eLimit : ℕ)
    (normalization : Option (ℚ × ℚ)) (batchN : Option ℕ) :
    List (List (Val × ℕ)) :=
  match batchN with
  | some b => matchOnline cdist xs ys eLimit normalization b
  | none => (matchInMem cdist xs ys eLimit normalization).map (List.map liftPair)

/-- The computation of `match` after validation and dispatch (lines
118-162): effective limit inflation, matcher selection, and assembly. -/
def matchBody (lhv rhv : List Doc) (cdist : Mat → Mat → Mat) (mName : String)
    (limN : Option ℕ) (normalization : Option (ℚ × ℚ)) (batchN : Option ℕ)
    (excludeSelf onlyId : Bool) : List Doc :=
  let eLimit : ℕ := eLimitOf limN rhv.length excludeSelf
  let xs := lhv.map Doc.emb
  let ys := rhv.map Doc.emb
  let rows := matcherRows cdist xs ys eLimit normalization batchN
  let stop : ℕ := stopOf limN rhv.length excludeSelf
  (lhv.zip rows).map (fun p =>
    p.1.setMatches (buildMatches (ids lhv) rhv mName stop excludeSelf onlyId p.1 p.2 0))

/-- Model of `match` (lines 20-162): argument validation in source order
(`limit`, then `batch_size`, then the empty no-op, then metric dispatch),
then `matchBody`.  `namedCdist` is the Distance Provider the string branch
resolves to (external, spec §4.1).  The traversal arguments, `filter_fn`,
`use_scipy` and `is_sparse` are omitted (defaults; no modelled claim
involves them).  Returns the updated source collection, or the raised
error. -/
def matchOp (lhv rhv : List Doc) (metric : MetricArg)
    (namedCdist : Mat → Mat → Mat) (limit : Option ℤ)
    (normalization : Option (ℚ × ℚ)) (metricName : Option String)
    (batchSize : Option ℤ) (excludeSelf onlyId : Bool) :
    Except String (List Doc) :=
  if validatePos limit = false then
    Except.error "limit must be larger than 0"
  else if validatePos batchSize = false then
    Except.error "batch_size must be larger than 0"
  else if lhv.isEmpty ∨ rhv.isEmpty then
    Except.ok lhv
  else
    match metric with
    | .invalid => Except.error "metric must be either string or a 2-arity function"
    | .name s =>
      Except.ok (matchBody lhv rhv namedCdist (metricName.getD s)
        (limit.map Int.toNat) normalization (batchSize.map Int.toNat)
        excludeSelf onlyId)
    | .fn nm f =>
      Except.ok (matchBody lhv rhv f (metricName.getD nm)
        (limit.map Int.toNat) normalization (batchSize.map Int.toNat)
        excludeSelf onlyId)

/-! ## Concrete instances for witnesses -/

/-- A Distance Provider built from a pairwise distance function (§4.1). -/
def pwDist (d : List ℚ → List ℚ → ℚ) : Mat → Mat → Mat :=
  fun X Y => X.map (fun x => Y.map (fun y => d x y))

/-- Squared euclidean distance on dense row vectors: a concrete instance of
the Distance Provider contract (one of the natively supported metrics). -/
def sqeuclidean (x y : List ℚ) : ℚ :=
  ((List.zip x y).map (fun p => (p.1 - p.2) * (p.1 - p.2))).sum

/-- The score attached under a metric name (first binding wins). -/
def scoreOf (d : Doc) (nm : String) : Option Val :=
  d.scores.lookup nm

/-- The ids of a record's matches, in order. -/
def matchIds (d : Doc) : List String := d.matchList.map Doc.id

/-- The scores of a record's matches under a metric name, in order. -/
def matchScores (d : Doc) (nm : String) : List (Option Val) :=
  d.matchList.map (fun m => scoreOf m nm)

/-- Extract the updated collection from a successful call (default `[]`). -/
def resOf (r : Except String (List Doc)) : List Doc :=
  r.toOption.getD []

/-- Example record at the origin. -/
def dA : Doc := .mk "A" [0] [] []

/-- Example record at 3. -/
def dB : Doc := .mk "B" [3] [] []

/-- Example record at 1 that already carries one match (record "X"). -/
def dT : Doc := .mk "T" [1] [] [.mk "X" [] [] []]

/-- Example record at 1 with no pre-existing matches. -/
def dU : Doc := .mk "U" [1] [] []

/-- A source record whose match list already contains a self-reference. -/
def dSelfRef : Doc := .mk "A" [0] [] [.mk "A" [] [] []]

end JinaMatch

namespace JinaMatch

variable {α : Type} [LinearOrder α] {β : Type} [LinearOrder β]

theorem sortP_sorted (l : List (α × ℕ)) : List.Sorted leP (sortP l) :=
  List.sorted_insertionSort leP l

theorem sortP_perm (l : List (α × ℕ)) : List.Perm (sortP l) l :=
  List.perm_insertionSort leP l

theorem sortP_congr {l₁ l₂ : List (α × ℕ)} (h : List.Perm l₁ l₂) : sortP l₁ = sortP l₂ :=
  List.eq_of_perm_of_sorted ((sortP_perm l₁).trans (h.trans (sortP_perm l₂).symm))
    (sortP_sorted l₁) (sortP_sorted l₂)

theorem sortP_eq_self {l : List (α × ℕ)} (h : List.Sorted leP l) : sortP l = l :=
  List.eq_of_perm_of_sorted (sortP_perm l) (sortP_sorted l) h

theorem sortP_idem (l : List (α × ℕ)) : sortP (sortP l) = sortP l :=
  sortP_eq_self (sortP_sorted l)

theorem sortP_length (l : List (α × ℕ)) : (sortP l).length = l.length :=
  (sortP_perm l).length_eq

/-- In a sorted list in which every element below `y` equals `y`, the first
`k` elements (for `k` at most the number of elements below `y`) are all `y`. -/
theorem take_eq_replicate_of_counted {y : α × ℕ} :
    ∀ (u : List (α × ℕ)) (k : ℕ), List.Sorted leP u →
      k ≤ u.countP (fun z => decide (leP z y)) →
      (∀ z ∈ u, leP z y → z = y) →
      u.take k = List.replicate k y
  | [], k, _, hk, _ => by
    simp only [List.countP_nil, Nat.le_zero] at hk
    simp [hk]
  | x :: u, k, hs, hk, hall => by
    cases k with
    | zero => simp
    | succ k =>
      have hxy : leP x y := by
        by_contra hxny
        have hcnt : (x :: u).countP (fun z => decide (leP z y)) = 0 := by
          rw [List.countP_eq_zero]
          intro z hz
          simp only [decide_eq_true_eq]
          rcases List.mem_cons.1 hz with rfl | hz'
          · exact hxny
          · intro hzy
            exact hxny (Trans.trans ((List.sorted_cons.1 hs).1 z hz') hzy)
        omega
      have hx : x = y := hall x (List.mem_cons_self x u) hxy
      have hcnt' : k ≤ u.countP (fun z => decide (leP z y)) := by
        have hstep : (x :: u).countP (fun z => decide (leP z y))
            = u.countP (fun z => decide (leP z y)) + 1 := by
          rw [List.countP_cons]
          simp [hxy]
        omega
      have ih := take_eq_replicate_of_counted u k (List.sorted_cons.1 hs).2 hcnt'
        (fun z hz hzy => hall z (List.mem_cons_of_mem x hz) hzy)
      rw [List.take_succ_cons, ih, hx, List.replicate_succ]

/-- Inserting `y` into a sorted list with at least `k` elements `≤ y`
does not change the first `k` elements. -/
theorem take_orderedInsert_of_counted {y : α × ℕ} :
    ∀ (u : List (α × ℕ)) (k : ℕ), List.Sorted leP u →
      k ≤ u.countP (fun z => decide (leP z y)) →
      (List.orderedInsert leP y u).take k = u.take k
  | [], k, _, hk => by
    simp only [List.countP_nil, Nat.le_zero] at hk
    simp [hk]
  | x :: u, k, hs, hk => by
    cases k with
    | zero => simp
    | succ k =>
      have hsu : List.Sorted leP u := (List.sorted_cons.1 hs).2
      have hxyOfCnt : ¬ leP x y → (x :: u).countP (fun z => decide (leP z y)) = 0 := by
        intro hxny
        rw [List.countP_eq_zero]
        intro z hz
        simp only [decide_eq_true_eq]
        rcases List.mem_cons.1 hz with rfl | hz'
        · exact hxny
        · intro hzy
          exact hxny (Trans.trans ((List.sorted_cons.1 hs).1 z hz') hzy)
      have hxy : leP x y := by
        by_contra hxny
        rw [hxyOfCnt hxny] at hk
        omega
      have hcnt' : k ≤ u.countP (fun z => decide (leP z y)) := by
        have hstep : (x :: u).countP (fun z => decide (leP z y))
            = u.countP (fun z => decide (leP z y)) + 1 := by
          rw [List.countP_cons]
          simp [hxy]
        omega
      by_cases hyx : leP y x
      · have hx : x = y := antisymm hxy hyx
        subst hx
        have heq : ∀ z ∈ x :: u, leP z x → z = x := by
          intro z hz hzy
          rcases List.mem_cons.1 hz with rfl | hz'
          · rfl
          · exact antisymm hzy ((List.sorted_cons.1 hs).1 z hz')
        have h1 : (x :: u).take k = List.replicate k x :=
          take_eq_replicate_of_counted (x :: u) k hs (le_trans (Nat.le_succ k) hk) heq
        have h2 : u.take k = List.replicate k x :=
          take_eq_replicate_of_counted u k hsu hcnt'
            (fun z hz hzy => heq z (List.mem_cons_of_mem x hz) hzy)
        simp only [List.orderedInsert, if_pos hyx]
        rw [List.take_succ_cons, List.take_succ_cons, h1, h2]
      · simp only [List.orderedInsert, if_neg hyx]
        rw [List.take_succ_cons, List.take_succ_cons,
          take_orderedInsert_of_counted u k hsu hcnt']

/-- Appending elements that each dominate at least `k` elements of `c`
does not change the first `k` elements of the sorted result. -/
theorem take_sortP_append_of_counted :
    ∀ (rl : List (α × ℕ)) (c : List (α × ℕ)) (k : ℕ),
      (∀ y ∈ rl, k ≤ c.countP (fun z => decide (leP z y))) →
      (sortP (c ++ rl)).take k = (sortP c).take k
  | [], c, k, _ => by simp
  | y :: rl, c, k, h => by
    have hstep : sortP (c ++ [y]) = List.orderedInsert leP y (sortP c) := by
      refine List.eq_of_perm_of_sorted ?_ (sortP_sorted _) ?_
      · exact (sortP_perm _).trans
          ((List.perm_append_singleton y c).trans
            (((sortP_perm c).symm.cons y).trans
              (List.perm_orderedInsert leP y (sortP c)).symm))
      · exact (sortP_sorted c).orderedInsert y _
    have hrec := take_sortP_append_of_counted rl (c ++ [y]) k
      (fun y' hy' => le_trans (h y' (List.mem_cons_of_mem y hy'))
        (by rw [List.countP_append]; omega))
    have hins : (List.orderedInsert leP y (sortP c)).take k = (sortP c).take k := by
      refine take_orderedInsert_of_counted (sortP c) k (sortP_sorted c) ?_
      rw [(sortP_perm c).countP_eq]
      exact h y (List.mem_cons_self y rl)
    calc (sortP (c ++ y :: rl)).take k
        = (sortP ((c ++ [y]) ++ rl)).take k := by
          rw [List.append_assoc]; rfl
      _ = (sortP (c ++ [y])).take k := hrec
      _ = (sortP c).take k := by rw [hstep, hins]

/-- Trimming the right operand to its `k` smallest before a merge does not
change the `k` smallest of the merged result (spec §4.5 step 4: the running
best-k merge loses nothing by keeping only `k` candidates per step). -/
theorem take_sortP_append_take (a b : List (α × ℕ)) (k : ℕ) :
    (sortP (a ++ (sortP b).take k)).take k = (sortP (a ++ b)).take k := by
  have hsplit : sortP (a ++ b) = sortP ((a ++ (sortP b).take k) ++ (sortP b).drop k) := by
    refine sortP_congr ?_
    have : (a ++ (sortP b).take k) ++ (sortP b).drop k = a ++ sortP b := by
      rw [List.append_assoc, List.take_append_drop]
    rw [this]
    exact List.Perm.append_left a (sortP_perm b).symm
  rw [hsplit]
  refine (take_sortP_append_of_counted ((sortP b).drop k) (a ++ (sortP b).take k) k ?_).symm
  intro y hy
  have hlen : k < (sortP b).length := by
    by_contra hlt
    rw [List.drop_eq_nil_of_le (by omega)] at hy
    exact absurd hy (List.not_mem_nil y)
  have htb : ∀ z ∈ (sortP b).take k, leP z y := fun z hz =>
    (sortP_sorted b).rel_of_mem_take_of_mem_drop hz hy
  have hclen : ((sortP b).take k).countP (fun z => decide (leP z y)) = k := by
    rw [List.countP_eq_length.2 (fun z hz => decide_eq_true (htb z hz))]
    rw [List.length_take]
    omega
  rw [List.countP_append]
  omega

/-- Same as `take_sortP_append_take`, trimming the left operand. -/
theorem take_sortP_take_append (a b : List (α × ℕ)) (k : ℕ) :
    (sortP ((sortP b).take k ++ a)).take k = (sortP (b ++ a)).take k := by
  have h1 : sortP ((sortP b).take k ++ a) = sortP (a ++ (sortP b).take k) :=
    sortP_congr (List.perm_append_comm)
  have h2 : sortP (b ++ a) = sortP (a ++ b) := sortP_congr (List.perm_append_comm)
  rw [h1, h2, take_sortP_append_take]

/-- Sorting a concatenation whose right part dominates the left part and is
itself sorted just sorts the left part in place. -/
theorem sortP_append_of_le {a b : List (α × ℕ)}
    (hab : ∀ x ∈ a, ∀ y ∈ b, leP x y) (hb : List.Sorted leP b) :
    sortP (a ++ b) = sortP a ++ b := by
  refine List.eq_of_perm_of_sorted ?_ (sortP_sorted _) ?_
  · exact (sortP_perm _).trans (List.Perm.append_right b (sortP_perm a).symm)
  · rw [List.Sorted, List.pairwise_append]
    exact ⟨sortP_sorted a, hb,
      fun x hx y hy => hab x ((sortP_perm a).mem_iff.1 hx) y hy⟩

/-- Sorting commutes with relabelling the pairs along an order-embedding. -/
theorem sortP_map_mono {f : α × ℕ → β × ℕ}
    (hf : ∀ p q, leP p q ↔ leP (f p) (f q)) (l : List (α × ℕ)) :
    sortP (l.map f) = (sortP l).map f := by
  refine List.eq_of_perm_of_sorted ?_ (sortP_sorted _) ?_
  · exact (sortP_perm _).trans (List.Perm.map f (sortP_perm l).symm)
  · exact List.Pairwise.map f (fun p q h => (hf p q).1 h) (sortP_sorted l)

/-! ## Document and assembly lemmas -/

@[simp] theorem Doc.id_mk (i : String) (e : List ℚ) (s : List (String × Val))
    (m : List Doc) : Doc.id (.mk i e s m) = i := rfl

@[simp] theorem Doc.matchList_mk (i : String) (e : List ℚ)
    (s : List (String × Val)) (m : List Doc) : Doc.matchList (.mk i e s m) = m := rfl

@[simp] theorem Doc.id_withScore (d : Doc) (nm : String) (v : Val) :
    (d.withScore nm v).id = d.id := rfl

@[simp] theorem Doc.matchList_withScore (d : Doc) (nm : String) (v : Val) :
    (d.withScore nm v).matchList = d.matchList := rfl

@[simp] theorem Doc.scores_withScore (d : Doc) (nm : String) (v : Val) :
    (d.withScore nm v).scores = (nm, v) :: d.scores := rfl

@[simp] theorem Doc.id_popMatches (d : Doc) : d.popMatches.id = d.id := by
  cases d; rfl

@[simp] theorem Doc.matchList_popMatches (d : Doc) : d.popMatches.matchList = [] := by
  cases d; rfl

@[simp] theorem Doc.id_setMatches (d : Doc) (ms : List Doc) :
    (d.setMatches ms).id = d.id := rfl

@[simp] theorem Doc.matchList_setMatches (d : Doc) (ms : List Doc) :
    (d.setMatches ms).matchList = ms := rfl

@[simp] theorem detachIfShared_id (lids : List String) (d : Doc) :
    (detachIfShared lids d).id = d.id := by
  unfold detachIfShared
  split <;> simp

/-- Every assembled match arises from a candidate pair of the row, with the
self-exclusion test passed. -/
theorem mem_buildMatches {lids : List String} {rhv : List Doc} {mName : String}
    {stop : ℕ} {es oi : Bool} {q : Doc} :
    ∀ {row : List (Val × ℕ)} {num : ℕ} {m : Doc},
      m ∈ buildMatches lids rhv mName stop es oi q row num →
      ∃ dv i, (dv, i) ∈ row ∧
        m = (detachIfShared lids (resolveDoc rhv oi i)).withScore mName dv ∧
        ¬((detachIfShared lids (resolveDoc rhv oi i)).id = q.id ∧ es = true)
  | [], num, m => by
    intro hm
    simp [buildMatches] at hm
  | (dv, i) :: rest, num, m => by
    intro hm
    rw [buildMatches] at hm
    by_cases hc : (detachIfShared lids (resolveDoc rhv oi i)).id = q.id ∧ es = true
    · rw [if_pos hc] at hm
      obtain ⟨dv', i', hmem, hrest⟩ := mem_buildMatches hm
      exact ⟨dv', i', List.mem_cons_of_mem _ hmem, hrest⟩
    · rw [if_neg hc] at hm
      by_cases hs : num + 1 ≥ stop
      · rw [if_pos hs] at hm
        rcases List.mem_singleton.1 hm with rfl
        exact ⟨dv, i, List.mem_cons_self _ _, rfl, hc⟩
      · rw [if_neg hs] at hm
        rcases List.mem_cons.1 hm with rfl | hm'
        · exact ⟨dv, i, List.mem_cons_self _ _, rfl, hc⟩
        · obtain ⟨dv', i', hmem, hrest⟩ := mem_buildMatches hm'
          exact ⟨dv', i', List.mem_cons_of_mem _ hmem, hrest⟩

/-- Every record of `matchBody`'s output is a source record with a rebuilt
match list assembled from one of the matcher's rows. -/
theorem mem_matchBody {lhv rhv : List Doc} {cdist : Mat → Mat → Mat}
    {mName : String} {limN : Option ℕ} {norm : Option (ℚ × ℚ)}
    {batchN : Option ℕ} {es oi : Bool} {q' : Doc}
    (h : q' ∈ matchBody lhv rhv cdist mName limN norm batchN es oi) :
    ∃ q row, q ∈ lhv ∧
      row ∈ matcherRows cdist (lhv.map Doc.emb) (rhv.map Doc.emb)
        (eLimitOf limN rhv.length es) norm batchN ∧
      q' = q.setMatches (buildMatches (ids lhv) rhv mName
        (stopOf limN rhv.length es) es oi q row 0) := by
  unfold matchBody at h
  obtain ⟨p, hp, rfl⟩ := List.mem_map.1 h
  exact ⟨p.1, p.2, (List.of_mem_zip hp).1, (List.of_mem_zip hp).2, rfl⟩

/-- A successful non-degenerate `matchOp` call is a `matchBody` call for
the dispatched distance function and metric name. -/
theorem matchOp_ok_cases {lhv rhv : List Doc} {metric : MetricArg}
    {nc : Mat → Mat → Mat} {limit : Option ℤ} {norm : Option (ℚ × ℚ)}
    {mn : Option String} {bs : Option ℤ} {es oi : Bool} {res : List Doc}
    (h : matchOp lhv rhv metric nc limit norm mn bs es oi = .ok res)
    (hl : lhv ≠ []) (hr : rhv ≠ []) :
    ∃ cdist dn,
      res = matchBody lhv rhv cdist (mn.getD dn) (limit.map Int.toNat) norm
        (bs.map Int.toNat) es oi := by
  unfold matchOp at h
  by_cases h1 : validatePos limit = false
  · rw [if_pos h1] at h
    exact absurd h (by simp)
  · rw [if_neg h1] at h
    by_cases h2 : validatePos bs = false
    · rw [if_pos h2] at h
      exact absurd h (by simp)
    · rw [if_neg h2] at h
      have hemp : ¬(lhv.isEmpty ∨ rhv.isEmpty) := by
        simp only [List.isEmpty_iff]
        push_neg
        exact ⟨hl, hr⟩
      rw [if_neg hemp] at h
      cases metric with
      | invalid => exact absurd h (by simp)
      | name s =>
        refine ⟨nc, s, ?_⟩
        simpa using h.symm
      | fn nm f =>
        refine ⟨f, nm, ?_⟩
        simpa using h.symm

/-! ## Row-level characterisation of the online matcher -/

theorem sortP_take_sorted (l : List (α × ℕ)) (k : ℕ) :
    List.Sorted leP ((sortP l).take k) :=
  List.Pairwise.sublist (List.take_sublist k (sortP l)) (sortP_sorted l)

theorem sortP_take_eq_self (l : List (α × ℕ)) (k : ℕ) :
    sortP ((sortP l).take k) = (sortP l).take k :=
  sortP_eq_self (sortP_take_sorted l k)

/-- The merge fold of the online matcher computes, per row, the `lim`
smallest candidates of everything it has consumed. -/
theorem foldl_merge (lim : ℕ) :
    ∀ (cs : List (List (α × ℕ))) (acc : List (α × ℕ)),
      cs.foldl (fun b c => (sortP (c ++ b)).take lim) ((sortP acc).take lim)
        = (sortP (cs.flatten ++ acc)).take lim
  | [], acc => by simp
  | c :: cs, acc => by
    rw [List.foldl_cons]
    have h1 : (sortP (c ++ (sortP acc).take lim)).take lim
        = (sortP (c ++ acc)).take lim :=
      take_sortP_append_take c acc lim
    have h2 := foldl_merge lim cs (c ++ acc)
    rw [h1, h2]
    refine congrArg (fun l => List.take lim l) (sortP_congr ?_)
    have h3 : (c :: cs).flatten ++ acc = (c ++ cs.flatten) ++ acc := by simp
    rw [h3, ← List.append_assoc]
    exact List.Perm.append_right acc List.perm_append_comm

theorem pairsFrom_append (a b : List ℚ) :
    ∀ n : ℕ, pairsFrom n (a ++ b) = pairsFrom n a ++ pairsFrom (n + a.length) b := by
  induction a with
  | nil => intro n; simp [pairsFrom]
  | cons x a ih =>
    intro n
    rw [List.cons_append]
    simp only [pairsFrom, List.length_cons]
    rw [ih (n + 1)]
    have he : n + 1 + a.length = n + (a.length + 1) := by omega
    rw [he, List.cons_append]

theorem pairsFrom_shift (l : List ℚ) (k : ℕ) :
    ∀ n : ℕ, pairsFrom (n + k) l = (pairsFrom n l).map (fun p => (p.1, p.2 + k)) := by
  induction l with
  | nil => intro n; simp [pairsFrom]
  | cons x l ih =>
    intro n
    simp only [pairsFrom, List.map_cons]
    have : n + k + 1 = (n + 1) + k := by omega
    rw [this, ih (n + 1)]

theorem pairsFrom_length (l : List ℚ) : ∀ n, (pairsFrom n l).length = l.length := by
  induction l with
  | nil => intro n; rfl
  | cons x l ih => intro n; simp [pairsFrom, ih]

theorem batchAux_join {γ : Type} (B : ℕ) (hB : 0 < B) :
    ∀ (f off : ℕ) (l : List γ), l.length ≤ f →
      ((batchAux B f off l).map Prod.fst).flatten = l := by
  intro f
  induction f with
  | zero =>
    intro off l hl
    rw [List.eq_nil_of_length_eq_zero (Nat.le_zero.1 hl)]
    rfl
  | succ f ih =>
    intro off l hl
    cases l with
    | nil => rfl
    | cons x l' =>
      rw [batchAux]
      simp only [List.map_cons, List.flatten_cons]
      rw [ih (off + B) ((x :: l').drop B)
        (by rw [List.length_drop]; simp only [List.length_cons] at hl ⊢; omega)]
      exact List.take_append_drop B (x :: l')

theorem batchAux_map {γ δ : Type} (g : γ → δ) (B : ℕ) :
    ∀ (f off : ℕ) (l : List γ),
      batchAux B f off (l.map g) = (batchAux B f off l).map
        (fun p => (p.1.map g, p.2)) := by
  intro f
  induction f with
  | zero => intro off l; rfl
  | succ f ih =>
    intro off l
    cases l with
    | nil => rfl
    | cons x l' =>
      simp only [List.map_cons]
      rw [batchAux, batchAux]
      have hmc : g x :: List.map g l' = List.map g (x :: l') := rfl
      rw [hmc, ← List.map_take, ← List.map_drop, ih (off + B) ((x :: l').drop B)]
      simp

theorem liftShift_mono (off : ℕ) (p q : ℚ × ℕ) :
    leP p q ↔ leP (liftShift off p) (liftShift off q) := by
  unfold leP liftShift
  simp only [WithTop.coe_lt_coe, WithTop.coe_eq_coe]
  constructor
  · rintro (h | ⟨h, h2⟩)
    · exact Or.inl h
    · exact Or.inr ⟨h, by omega⟩
  · rintro (h | ⟨h, h2⟩)
    · exact Or.inl h
    · exact Or.inr ⟨h, by omega⟩

theorem liftPair_mono (p q : ℚ × ℕ) :
    leP p q ↔ leP (liftPair p) (liftPair q) := by
  unfold leP liftPair
  simp only [WithTop.coe_lt_coe, WithTop.coe_eq_coe]

theorem sortP_replicate (n : ℕ) (p : α × ℕ) :
    sortP (List.replicate n p) = List.replicate n p :=
  sortP_eq_self (List.pairwise_replicate.2 (Or.inr (Or.inr ⟨rfl, le_refl _⟩)))

/-- The chunk contribution without normalization is the trimmed sort of the
chunk's globally indexed, lifted pairs. -/
theorem chunkContrib_none (lim off : ℕ) (c : List ℚ) :
    chunkContrib lim none off c
      = (sortP ((pairsOf c).map (liftShift off))).take lim := by
  unfold chunkContrib topkRow
  simp only []
  rw [sortP_map_mono (liftShift_mono off), List.map_take]

/-- Generic length preservation of the batch loop. -/
theorem foldl_zipWith_length {γ π σ : Type} (g : π → σ → σ) (F : γ → List π) :
    ∀ (bs : List γ) (init : List σ), (∀ b ∈ bs, (F b).length = init.length) →
      (bs.foldl (fun best b => List.zipWith g (F b) best) init).length
        = init.length
  | [], init, _ => rfl
  | b :: bs, init, hn => by
    rw [List.foldl_cons]
    have h1 : (List.zipWith g (F b) init).length = init.length := by
      rw [List.length_zipWith, hn b (List.mem_cons_self b bs)]
      omega
    rw [foldl_zipWith_length g F bs (List.zipWith g (F b) init)
      (fun b' hb' => by rw [h1]; exact hn b' (List.mem_cons_of_mem b hb')), h1]

/-- Row extraction from the batch loop: the fold of row-wise merges. -/
theorem foldl_zipWith_getD {γ π σ : Type} (g : π → σ → σ) (F : γ → List π)
    (dp : π) (ds : σ) :
    ∀ (bs : List γ) (init : List σ), (∀ b ∈ bs, (F b).length = init.length) →
      ∀ r : ℕ, r < init.length →
      (bs.foldl (fun best b => List.zipWith g (F b) best) init).getD r ds
        = bs.foldl (fun x b => g ((F b).getD r dp) x) (init.getD r ds)
  | [], _, _, _, _ => rfl
  | b :: bs, init, hn, r, hr => by
    rw [List.foldl_cons, List.foldl_cons]
    have hFb : (F b).length = init.length := hn b (List.mem_cons_self b bs)
    have h1 : (List.zipWith g (F b) init).length = init.length := by
      rw [List.length_zipWith, hFb]
      omega
    have h2 : (List.zipWith g (F b) init).getD r ds
        = g ((F b).getD r dp) (init.getD r ds) := by
      rw [List.getD_eq_getElem _ _ (h1 ▸ hr), List.getD_eq_getElem _ _ hr,
        List.getD_eq_getElem _ _ (hFb ▸ hr), List.getElem_zipWith]
    rw [foldl_zipWith_getD g F dp ds bs (List.zipWith g (F b) init)
      (fun b' hb' => by rw [h1]; exact hn b' (List.mem_cons_of_mem b hb')) r
      (h1 ▸ hr), h2]

/-- Lifting globally indexed pairs equals lifting-and-shifting locally
indexed ones. -/
theorem pairsFrom_lift_eq (off : ℕ) (c : List ℚ) :
    (pairsFrom off c).map liftPair = (pairsOf c).map (liftShift off) := by
  have h0 : pairsFrom off c = pairsFrom (0 + off) c := by rw [Nat.zero_add]
  rw [h0, pairsFrom_shift c off 0, List.map_map]
  rfl

/-- The concatenation of the per-batch (lifted, globally indexed) pair lists
recovers the full row's pairs. -/
theorem flatten_batch_pairs (B : ℕ) (hB : 0 < B) :
    ∀ (f off : ℕ) (l : List ℚ), l.length ≤ f →
      ((batchAux B f off l).map
        (fun cb => (pairsOf cb.1).map (liftShift cb.2))).flatten
        = (pairsFrom off l).map liftPair := by
  intro f
  induction f with
  | zero =>
    intro off l hl
    rw [List.eq_nil_of_length_eq_zero (Nat.le_zero.1 hl)]
    rfl
  | succ f ih =>
    intro off l hl
    cases l with
    | nil => rfl
    | cons x l' =>
      rw [batchAux]
      simp only [List.map_cons, List.flatten_cons]
      rw [ih (off + B) ((x :: l').drop B)
        (by rw [List.length_drop]; simp only [List.length_cons] at hl ⊢; omega)]
      have hsplit : pairsFrom off (x :: l')
          = pairsFrom off ((x :: l').take B) ++
            pairsFrom (off + ((x :: l').take B).length) ((x :: l').drop B) := by
        rw [← pairsFrom_append ((x :: l').take B) ((x :: l').drop B) off,
          List.take_append_drop]
      by_cases hlen : B ≤ (x :: l').length
      · have htk : ((x :: l').take B).length = B := by
          rw [List.length_take]
          omega
        rw [hsplit, htk, List.map_append]
        simp only [pairsFrom_lift_eq]
      · have hdrop : (x :: l').drop B = [] := List.drop_eq_nil_of_le (by omega)
        have htake : (x :: l').take B = x :: l' := List.take_of_length_le (by omega)
        rw [hsplit, hdrop, htake]
        have h0 : pairsFrom (off + B) ([] : List ℚ) = [] := rfl
        have h1 : pairsFrom (off + (x :: l').length) ([] : List ℚ) = [] := rfl
        rw [h0, h1, List.map_append]
        simp only [List.map_nil, List.append_nil]
        rw [pairsFrom_lift_eq]

/-- Replacing each trimmed sorted block by the block itself does not change
the `lim` smallest of the whole concatenation. -/
theorem take_sortP_flatten_trimmed (lim : ℕ) :
    ∀ (bs : List (List (α × ℕ))) (a : List (α × ℕ)),
      (sortP ((bs.map (fun b => (sortP b).take lim)).flatten ++ a)).take lim
        = (sortP (bs.flatten ++ a)).take lim
  | [], _ => rfl
  | b :: bs, a => by
    simp only [List.map_cons, List.flatten_cons, List.append_assoc]
    have h1 : sortP ((sortP b).take lim ++
          ((bs.map (fun b => (sortP b).take lim)).flatten ++ a))
        = sortP (((bs.map (fun b => (sortP b).take lim)).flatten ++ a)
          ++ (sortP b).take lim) :=
      sortP_congr List.perm_append_comm
    rw [h1, take_sortP_append_take]
    have h2 : sortP (((bs.map (fun b => (sortP b).take lim)).flatten ++ a) ++ b)
        = sortP ((bs.map (fun b => (sortP b).take lim)).flatten ++ (a ++ b)) := by
      rw [List.append_assoc]
    rw [h2, take_sortP_flatten_trimmed lim bs (a ++ b)]
    refine congrArg (fun l => List.take lim l) (sortP_congr ?_)
    have h4 : bs.flatten ++ (a ++ b) = (bs.flatten ++ a) ++ b := by
      rw [List.append_assoc]
    rw [h4]
    exact List.perm_append_comm

/-- The online matcher has one output row per source row. -/
theorem matchOnline_length (cdist : Mat → Mat → Mat) (xs ys : Mat) (lim : ℕ)
    (norm : Option (ℚ × ℚ)) (B : ℕ)
    (hshape : ∀ yb ∈ batchesOf B ys, (cdist xs yb.1).length = xs.length) :
    (matchOnline cdist xs ys lim norm B).length = xs.length := by
  unfold matchOnline
  simp only [List.length_map]
  rw [foldl_zipWith_length (updateBest lim)
    (fun yb => (cdist xs yb.1).map (chunkContrib lim norm yb.2)) (batchesOf B ys)
    (List.replicate xs.length (List.replicate lim ((⊤ : Val), 0)))
    (fun yb hyb => by rw [List.length_map, List.length_replicate]; exact hshape yb hyb)]
  exact List.length_replicate _ _

/-- Row `r` of the online matcher: the final sort of the `lim` smallest of
all per-batch candidates merged with the `(+∞, 0)` initialisation. -/
theorem matchOnline_getD (cdist : Mat → Mat → Mat) (xs ys : Mat) (lim : ℕ)
    (norm : Option (ℚ × ℚ)) (B : ℕ)
    (hshape : ∀ yb ∈ batchesOf B ys, (cdist xs yb.1).length = xs.length)
    (r : ℕ) (hr : r < xs.length) :
    (matchOnline cdist xs ys lim norm B).getD r []
      = sortP ((sortP (((batchesOf B ys).map (fun yb =>
          chunkContrib lim norm yb.2 ((cdist xs yb.1).getD r []))).flatten
          ++ List.replicate lim ((⊤ : Val), 0))).take lim) := by
  unfold matchOnline
  simp only []
  set F := fun yb : Mat × ℕ => (cdist xs yb.1).map (chunkContrib lim norm yb.2) with hF
  set init := List.replicate xs.length (List.replicate lim ((⊤ : Val), 0)) with hinit
  have hn : ∀ yb ∈ batchesOf B ys, (F yb).length = init.length := by
    intro yb hyb
    rw [hF, hinit, List.length_map, List.length_replicate]
    exact hshape yb hyb
  have hlenfold : ((batchesOf B ys).foldl
      (fun best yb => List.zipWith (updateBest lim) (F yb) best) init).length
      = init.length := foldl_zipWith_length (updateBest lim) F (batchesOf B ys) init hn
  have hrinit : r < init.length := by rw [hinit, List.length_replicate]; exact hr
  have hmap : ((((batchesOf B ys).foldl
      (fun best yb => List.zipWith (updateBest lim) (F yb) best) init)).map sortP).getD r []
      = sortP (((batchesOf B ys).foldl
        (fun best yb => List.zipWith (updateBest lim) (F yb) best) init).getD r []) := by
    rw [List.getD_eq_getElem _ _ (by rw [List.length_map, hlenfold]; exact hrinit),
      List.getElem_map, List.getD_eq_getElem _ _ (by rw [hlenfold]; exact hrinit)]
  rw [hmap, foldl_zipWith_getD (updateBest lim) F [] [] (batchesOf B ys) init hn r hrinit]
  have hgetinit : init.getD r [] = List.replicate lim ((⊤ : Val), 0) := by
    rw [hinit, List.getD_eq_getElem _ _ hrinit, List.getElem_replicate]
  have hstep : ∀ yb ∈ batchesOf B ys, ∀ x : List (Val × ℕ),
      updateBest lim ((F yb).getD r []) x
        = updateBest lim (chunkContrib lim norm yb.2 ((cdist xs yb.1).getD r [])) x := by
    intro yb hyb x
    have hrF : r < (cdist xs yb.1).length := by rw [hshape yb hyb]; exact hr
    rw [hF]
    rw [List.getD_eq_getElem _ _ (by rw [List.length_map]; exact hrF),
      List.getElem_map, List.getD_eq_getElem _ _ hrF]
  rw [List.foldl_ext _ _ _ (fun x yb hyb => hstep yb hyb x), hgetinit]
  have hfm := List.foldl_map (fun yb : Mat × ℕ =>
      chunkContrib lim norm yb.2 ((cdist xs yb.1).getD r []))
    (fun x c => updateBest lim c x) (batchesOf B ys)
    (List.replicate lim ((⊤ : Val), 0))
  rw [← hfm]
  have hinit2 : List.replicate lim ((⊤ : Val), 0)
      = (sortP (List.replicate lim ((⊤ : Val), 0))).take lim := by
    rw [sortP_replicate, List.take_of_length_le (le_of_eq (List.length_replicate _ _))]
  have hfold := foldl_merge lim ((batchesOf B ys).map (fun yb =>
      chunkContrib lim norm yb.2 ((cdist xs yb.1).getD r [])))
    (List.replicate lim ((⊤ : Val), 0))
  rw [← hinit2] at hfold
  simp only [updateBest]
  exact congrArg sortP hfold

/-- Row `r` of the in-memory matcher. -/
theorem matchInMem_getD (cdist : Mat → Mat → Mat) (xs ys : Mat) (lim : ℕ)
    (norm : Option (ℚ × ℚ)) (r : ℕ) (hr : r < (cdist xs ys).length) :
    (matchInMem cdist xs ys lim norm).getD r []
      = (let drow := (cdist xs ys).getD r []
         let t := topkRow (min lim ys.length) drow
         match norm with
         | none => t
         | some tr => t.map (fun p => (minmaxN tr (rowMin drow, rowMax drow) p.1, p.2))) := by
  unfold matchInMem
  simp only []
  rw [List.getD_eq_getElem _ _ (by rw [List.length_map]; exact hr),
    List.getElem_map, List.getD_eq_getElem _ _ hr]

/-- The merged online row without normalization equals the lifted in-memory
top-k row whenever the limit does not exceed the row length. -/
theorem online_row_eq_topk (lim B : ℕ) (hB : 0 < B) (drow : List ℚ)
    (hlim : lim ≤ drow.length) :
    sortP ((sortP (((batchesOf B drow).map (fun cb =>
        chunkContrib lim none cb.2 cb.1)).flatten
        ++ List.replicate lim ((⊤ : Val), 0))).take lim)
      = (topkRow lim drow).map liftPair := by
  have hcc : (batchesOf B drow).map (fun cb => chunkContrib lim none cb.2 cb.1)
      = ((batchesOf B drow).map (fun cb => (pairsOf cb.1).map (liftShift cb.2))).map
        (fun b => (sortP b).take lim) := by
    rw [List.map_map]
    refine List.map_congr_left ?_
    intro cb _
    exact chunkContrib_none lim cb.2 cb.1
  have hflat : ((batchesOf B drow).map
      (fun cb => (pairsOf cb.1).map (liftShift cb.2))).flatten
      = (pairsOf drow).map liftPair := by
    unfold batchesOf pairsOf
    exact flatten_batch_pairs B hB drow.length 0 drow (le_refl _)
  rw [hcc, take_sortP_flatten_trimmed, hflat]
  have hpads : (sortP ((pairsOf drow).map liftPair
      ++ List.replicate lim ((⊤ : Val), 0))).take lim
      = (sortP ((pairsOf drow).map liftPair)).take lim := by
    refine take_sortP_append_of_counted _ _ lim ?_
    intro y hy
    have hy0 : y = ((⊤ : Val), 0) := List.eq_of_mem_replicate hy
    have hall : ∀ z ∈ (pairsOf drow).map liftPair,
        (fun z => decide (leP z y)) z = true := by
      intro z hz
      obtain ⟨p, _, rfl⟩ := List.mem_map.1 hz
      simp only [decide_eq_true_eq]
      rw [hy0]
      exact Or.inl (WithTop.coe_lt_top p.1)
    rw [List.countP_eq_length.2 hall, List.length_map]
    unfold pairsOf
    rw [pairsFrom_length]
    exact hlim
  rw [hpads]
  rw [sortP_map_mono liftPair_mono, ← List.map_take]
  rw [sortP_eq_self (List.Pairwise.map liftPair
    (fun p q h => (liftPair_mono p q).1 h) (sortP_take_sorted (pairsOf drow) lim))]
  rfl

/-- Row `r` of a pointwise Distance Provider matrix. -/
theorem pwDist_getD (d : List ℚ → List ℚ → ℚ) (xs Y : Mat) (r : ℕ)
    (hr : r < xs.length) :
    (pwDist d xs Y).getD r [] = Y.map (d (xs.getD r [])) := by
  unfold pwDist
  rw [List.getD_eq_getElem _ _ (by rw [List.length_map]; exact hr),
    List.getElem_map, List.getD_eq_getElem _ _ hr]

/-- Row `r` of the online matcher over a pointwise Distance Provider, as a
computation over the full distance row of the source record. -/
theorem matchOnline_pw_getD (d : List ℚ → List ℚ → ℚ) (xs ys : Mat)
    (lim B : ℕ) (norm : Option (ℚ × ℚ)) (r : ℕ) (hr : r < xs.length) :
    (matchOnline (pwDist d) xs ys lim norm B).getD r []
      = sortP ((sortP (((batchesOf B (ys.map (d (xs.getD r [])))).map (fun cb =>
          chunkContrib lim norm cb.2 cb.1)).flatten
          ++ List.replicate lim ((⊤ : Val), 0))).take lim) := by
  have hshape : ∀ yb ∈ batchesOf B ys, (pwDist d xs yb.1).length = xs.length :=
    fun yb _ => List.length_map xs _
  rw [matchOnline_getD (pwDist d) xs ys lim norm B hshape r hr]
  have hbm : (batchesOf B ys).map (fun yb =>
      chunkContrib lim norm yb.2 ((pwDist d xs yb.1).getD r []))
      = (batchesOf B (ys.map (d (xs.getD r [])))).map (fun cb =>
        chunkContrib lim norm cb.2 cb.1) := by
    have h1 : batchesOf B (ys.map (d (xs.getD r [])))
        = (batchesOf B ys).map (fun p => (p.1.map (d (xs.getD r [])), p.2)) := by
      unfold batchesOf
      rw [List.length_map]
      exact batchAux_map (d (xs.getD r [])) B ys.length 0 ys
    rw [h1, List.map_map]
    refine List.map_congr_left ?_
    intro yb _
    simp only [Function.comp]
    rw [pwDist_getD d xs yb.1 r hr]
  rw [hbm]

/-- Row `r` of the in-memory matcher without normalization. -/
theorem matchInMem_none_getD (cdist : Mat → Mat → Mat) (xs ys : Mat)
    (lim : ℕ) (r : ℕ) (hr : r < (cdist xs ys).length) :
    (matchInMem cdist xs ys lim none).getD r []
      = topkRow (min lim ys.length) ((cdist xs ys).getD r []) := by
  rw [matchInMem_getD cdist xs ys lim none r hr]

/-! ## Claim C1: the Online Matcher refines the In-Memory Matcher -/

/-- C1 counterexample: with `normalization=(0,1)` and `batch_size=1`, the
online path normalizes each chunk by its own (degenerate) range and returns
scores that differ from the in-memory path beyond any tolerance: the second
candidate scores `0` online but `1` in memory. -/
theorem C1_counterexample :
    matchOnline (pwDist sqeuclidean) [[0]] [[0], [1]] 2 (some (0, 1)) 1
      = [[(((0 : ℚ) : Val), 0), (((0 : ℚ) : Val), 1)]] ∧
    (matchInMem (pwDist sqeuclidean) [[0]] [[0], [1]] 2 (some (0, 1))).map
      (List.map liftPair)
      = [[(((0 : ℚ) : Val), 0), (((1 : ℚ) : Val), 1)]] ∧
    (((0 : ℚ) : Val), (1 : ℕ)) ≠ (((1 : ℚ) : Val), (1 : ℕ)) :=
  ⟨by decide, by decide, by decide⟩

/-- C1 (amended): without normalization and with the effective limit at
most the target size, the Online Matcher returns exactly the In-Memory
Matcher's (dist, idx) rows (lifted into the extended value domain), for
every batch size `> 0`, dividing the target evenly or not.  With a
normalization range supplied the two paths genuinely diverge (per-chunk
versus full-row observed ranges), and with limit larger than the target the
online rows carry `(+∞, 0)` padding the in-memory rows do not have. -/
theorem C1_inmem_online_agree (d : List ℚ → List ℚ → ℚ) (xs ys : Mat)
    (lim B : ℕ) (hB : 0 < B) (hlim : lim ≤ ys.length) :
    matchOnline (pwDist d) xs ys lim none B
      = (matchInMem (pwDist d) xs ys lim none).map (List.map liftPair) := by
  have hshape : ∀ yb ∈ batchesOf B ys, (pwDist d xs yb.1).length = xs.length :=
    fun yb _ => List.length_map xs _
  have hpwlen : (pwDist d xs ys).length = xs.length := List.length_map xs _
  have hlen1 : (matchOnline (pwDist d) xs ys lim none B).length = xs.length :=
    matchOnline_length _ _ _ _ _ _ hshape
  have hlen2 : ((matchInMem (pwDist d) xs ys lim none).map
      (List.map liftPair)).length = xs.length := by
    rw [List.length_map]
    unfold matchInMem
    simp only [List.length_map]
    exact hpwlen
  refine List.ext_getElem (by rw [hlen1, hlen2]) ?_
  intro r h1 h2
  rw [← List.getD_eq_getElem _ [] h1, ← List.getD_eq_getElem _ [] h2]
  have hr : r < xs.length := by rw [← hlen1]; exact h1
  rw [matchOnline_pw_getD d xs ys lim B none r hr]
  have hrm : ((matchInMem (pwDist d) xs ys lim none).map
      (List.map liftPair)).getD r []
      = List.map liftPair ((matchInMem (pwDist d) xs ys lim none).getD r []) := by
    rw [List.getD_eq_getElem _ _ h2, List.getElem_map,
      List.getD_eq_getElem _ _ (by rw [List.length_map] at h2; exact h2)]
  rw [hrm, matchInMem_none_getD (pwDist d) xs ys lim r (by rw [hpwlen]; exact hr),
    pwDist_getD d xs ys r hr, min_eq_left hlim]
  exact online_row_eq_topk lim B hB (ys.map (d (xs.getD r [])))
    (by rw [List.length_map]; exact hlim)

/-- C1 witness: a concrete batch size that does not divide the target
evenly, with agreement of the two matchers. -/
theorem C1_inmem_online_agree_witness :
    0 < 2 ∧ 3 ≤ 3 ∧
    matchOnline (pwDist sqeuclidean) [[0]] [[0], [1], [4]] 3 none 2
      = (matchInMem (pwDist sqeuclidean) [[0]] [[0], [1], [4]] 3 none).map
        (List.map liftPair) :=
  ⟨by decide, by decide,
    C1_inmem_online_agree sqeuclidean [[0]] [[0], [1], [4]] 3 2
      (by decide) (by decide)⟩

/-! ## Claim C2: match-list length and score order -/

theorem scoreOf_withScore (d : Doc) (nm : String) (v : Val) :
    scoreOf (d.withScore nm v) nm = some v := by
  simp [scoreOf, Doc.withScore, Doc.scores, List.lookup]

/-- The attached scores are a sublist of the row's distance values. -/
theorem buildMatches_scores_sublist {lids : List String} {rhv : List Doc}
    {mName : String} {stop : ℕ} {es oi : Bool} {q : Doc} :
    ∀ (row : List (Val × ℕ)) (num : ℕ),
      List.Sublist
        ((buildMatches lids rhv mName stop es oi q row num).filterMap
          (fun m => scoreOf m mName))
        (row.map Prod.fst)
  | [], _ => by simp [buildMatches]
  | (dv, i) :: rest, num => by
    rw [buildMatches]
    by_cases hc : (detachIfShared lids (resolveDoc rhv oi i)).id = q.id ∧ es = true
    · rw [if_pos hc]
      exact (buildMatches_scores_sublist rest num).cons (dv, i).1
    · rw [if_neg hc]
      by_cases hs : num + 1 ≥ stop
      · rw [if_pos hs]
        rw [List.filterMap_cons, scoreOf_withScore]
        simp only [List.filterMap_nil, List.map_cons]
        exact (List.nil_sublist _).cons₂ dv
      · rw [if_neg hs]
        rw [List.filterMap_cons, scoreOf_withScore]
        simp only [List.map_cons]
        exact (buildMatches_scores_sublist rest (num + 1)).cons₂ dv

/-- The assembly loop appends at most `stop - num` further matches. -/
theorem buildMatches_length_le {lids : List String} {rhv : List Doc}
    {mName : String} {stop : ℕ} {es oi : Bool} {q : Doc} :
    ∀ (row : List (Val × ℕ)) (num : ℕ), num < stop →
      (buildMatches lids rhv mName stop es oi q row num).length ≤ stop - num
  | [], _, _ => by simp [buildMatches]
  | (dv, i) :: rest, num, hnum => by
    rw [buildMatches]
    by_cases hc : (detachIfShared lids (resolveDoc rhv oi i)).id = q.id ∧ es = true
    · rw [if_pos hc]
      exact buildMatches_length_le rest num hnum
    · rw [if_neg hc]
      by_cases hs : num + 1 ≥ stop
      · rw [if_pos hs]
        simp only [List.length_cons, List.length_nil]
        omega
      · rw [if_neg hs]
        simp only [List.length_cons]
        have := @buildMatches_length_le lids rhv mName stop es oi q rest (num + 1)
          (by omega)
        omega

/-- Every row the selected matcher hands to the assembler is sorted when no
normalization range is supplied. -/
theorem mem_matcherRows_sorted (cdist : Mat → Mat → Mat) (xs ys : Mat)
    (eLimit : ℕ) (batchN : Option ℕ) :
    ∀ row ∈ matcherRows cdist xs ys eLimit none batchN, List.Sorted leP row := by
  intro row hrow
  unfold matcherRows at hrow
  cases batchN with
  | some b =>
    simp only [matchOnline] at hrow
    obtain ⟨pre, _, rfl⟩ := List.mem_map.1 hrow
    exact sortP_sorted pre
  | none =>
    obtain ⟨inrow, hin, rfl⟩ := List.mem_map.1 hrow
    unfold matchInMem at hin
    obtain ⟨drow, _, rfl⟩ := List.mem_map.1 hin
    simp only []
    exact List.Pairwise.map liftPair (fun p q h => (liftPair_mono p q).1 h)
      (sortP_take_sorted (pairsOf drow) _)

/-- C2 counterexample: two equidistant targets yield two equal scores, so
the match list is not strictly ascending; and with `normalization=(1,0)`
the stored scores are in descending order. -/
theorem C2_counterexample :
    (resOf (matchOp [dA] [dT, dU] (.name "sqeuclidean") (pwDist sqeuclidean)
      (some 2) none (some "m") none false false)).map
        (fun q => q.matchList.filterMap (fun m => scoreOf m "m"))
      = [[((1 : ℚ) : Val), ((1 : ℚ) : Val)]] ∧
    (¬ List.Chain' (fun a b : Val => a < b) [((1 : ℚ) : Val), ((1 : ℚ) : Val)]) ∧
    (resOf (matchOp [dA] [dT, dB] (.name "sqeuclidean") (pwDist sqeuclidean)
      (some 2) (some (1, 0)) (some "m") none false false)).map
        (fun q => q.matchList.filterMap (fun m => scoreOf m "m"))
      = [[((1 : ℚ) : Val), ((0 : ℚ) : Val)]] ∧
    (¬ List.Chain' (fun a b : Val => a ≤ b) [((1 : ℚ) : Val), ((0 : ℚ) : Val)]) :=
  ⟨by decide,
   fun hch => absurd (List.chain'_cons.1 hch).1 (lt_irrefl _),
   by decide,
   fun hch => absurd (WithTop.coe_le_coe.1 (List.chain'_cons.1 hch).1)
     (by norm_num)⟩

/-- C2 (amended): after any successful call with `limit = L` on non-empty
collections, every source record carries at most `L` matches, and when no
normalization range is supplied the stored scores are sorted non-decreasing
(ties make strict ascent unattainable, and an inverted normalization range
reverses the order). -/
theorem C2_limit_len_sorted (lhv rhv : List Doc) (metric : MetricArg)
    (nc : Mat → Mat → Mat) (norm : Option (ℚ × ℚ)) (bs : Option ℤ)
    (es oi : Bool) (res : List Doc) (L : ℕ) (nm : String)
    (hl : lhv ≠ []) (hr : rhv ≠ [])
    (h : matchOp lhv rhv metric nc (some (L : ℤ)) norm (some nm) bs es oi
      = .ok res) :
    ∀ q' ∈ res, q'.matchList.length ≤ L ∧
      (norm = none → List.Chain' (fun a b : Val => a ≤ b)
        (q'.matchList.filterMap (fun m => scoreOf m nm))) := by
  have hL : 0 < L := by
    by_contra hL0
    have hL0' : L = 0 := by omega
    subst hL0'
    unfold matchOp at h
    simp [validatePos] at h
  obtain ⟨cdist, dn, rfl⟩ := matchOp_ok_cases h hl hr
  intro q' hq'
  rw [Option.getD_some] at hq'
  rw [show Option.map Int.toNat (some ((L : ℕ) : ℤ)) = some L by simp] at hq'
  obtain ⟨q, row, hq, hrow, rfl⟩ := mem_matchBody hq'
  rw [Doc.matchList_setMatches]
  constructor
  · have hlen := @buildMatches_length_le (ids lhv) rhv nm
      (stopOf (some L) rhv.length es) es oi q row 0 hL
    simpa [stopOf] using hlen
  · intro hnorm
    subst hnorm
    have hsorted : List.Sorted leP row :=
      mem_matcherRows_sorted cdist (lhv.map Doc.emb) (rhv.map Doc.emb)
        (eLimitOf (some L) rhv.length es) (bs.map Int.toNat) row hrow
    have hpf : List.Pairwise (fun a b : Val => a ≤ b) (row.map Prod.fst) :=
      List.Pairwise.map Prod.fst (fun p q hpq => by
        rcases hpq with hlt | ⟨heq, _⟩
        · exact le_of_lt hlt
        · exact le_of_eq heq) hsorted
    exact (List.Pairwise.sublist (buildMatches_scores_sublist row 0) hpf).chain'

/-- C2 witness: a concrete successful call with its length bound and score
order. -/
theorem C2_limit_len_sorted_witness :
    ([dA] ≠ ([] : List Doc)) ∧ ([dT, dB] ≠ ([] : List Doc)) ∧
    (∀ q' ∈ resOf (matchOp [dA] [dT, dB] (.name "sqeuclidean")
        (pwDist sqeuclidean) (some 2) none (some "m") none false false),
      q'.matchList.length ≤ 2 ∧
        (none = (none : Option (ℚ × ℚ)) → List.Chain' (fun a b : Val => a ≤ b)
          (q'.matchList.filterMap (fun m => scoreOf m "m")))) :=
  ⟨List.cons_ne_nil _ _, List.cons_ne_nil _ _,
    C2_limit_len_sorted [dA] [dT, dB] (.name "sqeuclidean") (pwDist sqeuclidean)
      none none false false _ 2 "m" (List.cons_ne_nil _ _) (List.cons_ne_nil _ _)
      rfl⟩

/-! ## Claim C5: pre-trim normalization bounds -/

theorem map_fst_pairsFrom (l : List ℚ) :
    ∀ n, (pairsFrom n l).map Prod.fst = l := by
  induction l with
  | nil => intro n; rfl
  | cons x l ih => intro n; simp only [pairsFrom, List.map_cons, ih]

/-- The values of the sorted pair list are the sorted row values. -/
theorem sortP_map_fst (row : List ℚ) :
    (sortP (pairsOf row)).map Prod.fst
      = List.insertionSort (fun a b : ℚ => a ≤ b) row := by
  have hperm : List.Perm ((sortP (pairsOf row)).map Prod.fst)
      (List.insertionSort (fun a b : ℚ => a ≤ b) row) := by
    refine ((List.Perm.map Prod.fst (sortP_perm (pairsOf row))).trans ?_).trans
      (List.perm_insertionSort _ row).symm
    unfold pairsOf
    rw [map_fst_pairsFrom]
  have hs1 : List.Sorted (fun a b : ℚ => a ≤ b)
      ((sortP (pairsOf row)).map Prod.fst) :=
    List.Pairwise.map Prod.fst (fun p q hpq => by
      rcases hpq with hlt | ⟨heq, _⟩
      · exact le_of_lt hlt
      · exact le_of_eq heq) (sortP_sorted (pairsOf row))
  have hs2 : List.Sorted (fun a b : ℚ => a ≤ b)
      (List.insertionSort (fun a b : ℚ => a ≤ b) row) :=
    List.sorted_insertionSort _ row
  exact List.eq_of_perm_of_sorted hperm hs1 hs2

/-- C5 (confirmed): with a normalization range and no batch size, the
in-memory matcher's output values are the `min(limit, len(target))` smallest
raw distances of the full row, each rescaled with the min and max of the
full untrimmed row; at a concrete input this differs from rescaling by the
min/max of only the retained top-k values. -/
theorem C5_pretrim_normalization_bounds :
    (∀ (cdist : Mat → Mat → Mat) (xs ys : Mat) (lim : ℕ) (lo hi : ℚ) (r : ℕ),
      r < (cdist xs ys).length →
      ((matchInMem cdist xs ys lim (some (lo, hi))).getD r []).map Prod.fst
        = ((List.insertionSort (fun a b : ℚ => a ≤ b)
            ((cdist xs ys).getD r [])).take (min lim ys.length)).map
          (minmaxN (lo, hi)
            (rowMin ((cdist xs ys).getD r []), rowMax ((cdist xs ys).getD r [])))) ∧
    ((matchInMem (fun _ _ => [[0, 1, 10]]) [[0]] [[0], [0], [0]] 2
        (some (0, 1))).getD 0 []).map Prod.fst = [0, 1/10] ∧
    minmaxN (0, 1) (rowMin [0, 1], rowMax [0, 1]) 1 = 1 ∧
    ((1 : ℚ)/10 ≠ 1) := by
  refine ⟨?_, by decide, by decide, by decide⟩
  intro cdist xs ys lim lo hi r hr
  rw [matchInMem_getD cdist xs ys lim (some (lo, hi)) r hr]
  show ((topkRow (min lim ys.length) ((cdist xs ys).getD r [])).map
      (fun p => (minmaxN (lo, hi)
        (rowMin ((cdist xs ys).getD r []), rowMax ((cdist xs ys).getD r [])) p.1,
        p.2))).map Prod.fst = _
  rw [List.map_map]
  have hcomp : (Prod.fst ∘ fun p : ℚ × ℕ => (minmaxN (lo, hi)
      (rowMin ((cdist xs ys).getD r []), rowMax ((cdist xs ys).getD r [])) p.1,
      p.2))
      = (minmaxN (lo, hi)
        (rowMin ((cdist xs ys).getD r []), rowMax ((cdist xs ys).getD r [])))
        ∘ Prod.fst := rfl
  rw [hcomp, ← List.map_map]
  refine congrArg _ ?_
  unfold topkRow
  rw [List.map_take, sortP_map_fst]

/-- C5 witness: the pre-trim bound property at a concrete call. -/
theorem C5_pretrim_normalization_bounds_witness :
    (0 : ℕ) < ((fun (_ _ : Mat) => [[(0 : ℚ), 2, 8]]) [[0]] [[0], [0]]).length ∧
    ((matchInMem (fun _ _ => [[(0 : ℚ), 2, 8]]) [[0]] [[0], [0]] 2
        (some (0, 1))).getD 0 []).map Prod.fst
      = ((List.insertionSort (fun a b : ℚ => a ≤ b)
          (((fun (_ _ : Mat) => [[(0 : ℚ), 2, 8]]) [[0]] [[0], [0]]).getD 0 [])).take
            (min 2 ([[(0 : ℚ)], [0]] : Mat).length)).map
          (minmaxN (0, 1)
            (rowMin (((fun (_ _ : Mat) => [[(0 : ℚ), 2, 8]]) [[0]] [[0], [0]]).getD 0 []),
             rowMax (((fun (_ _ : Mat) => [[(0 : ℚ), 2, 8]]) [[0]] [[0], [0]]).getD 0 []))) :=
  ⟨by decide,
    C5_pretrim_normalization_bounds.1 (fun _ _ => [[(0 : ℚ), 2, 8]])
      [[0]] [[0], [0]] 2 0 1 0 (by decide)⟩

/-! ## Claim C6: normalization semantics -/

/-- The linear rescale reverses order when the target range is inverted. -/
theorem minmaxN_antitone (lo hi m M v w : ℚ) (ht : hi ≤ lo) (hmM : m ≤ M)
    (hvw : v ≤ w) : minmaxN (lo, hi) (m, M) w ≤ minmaxN (lo, hi) (m, M) v := by
  unfold minmaxN
  simp only []
  by_cases hMm : M = m
  · simp only [if_pos hMm]; exact le_refl lo
  · simp only [if_neg hMm]
    have hpos : 0 < M - m := sub_pos.2 (lt_of_le_of_ne hmM (Ne.symm hMm))
    have h1 : (w - m) * (hi - lo) ≤ (v - m) * (hi - lo) :=
      mul_le_mul_of_nonpos_right (by linarith) (by linarith)
    have h2 : (w - m) * (hi - lo) / (M - m) ≤ (v - m) * (hi - lo) / (M - m) :=
      (div_le_div_right hpos).2 h1
    linarith

/-- The linear rescale stays inside the target range on the observed range. -/
theorem minmaxN_mem (lo hi m M v : ℚ) (ht : lo ≤ hi) (h1 : m ≤ v) (h2 : v ≤ M) :
    lo ≤ minmaxN (lo, hi) (m, M) v ∧ minmaxN (lo, hi) (m, M) v ≤ hi := by
  unfold minmaxN
  simp only []
  by_cases hMm : M = m
  · rw [if_pos hMm]
    exact ⟨le_refl _, ht⟩
  · rw [if_neg hMm]
    have hpos : 0 < M - m := sub_pos.2 (lt_of_le_of_ne (le_trans h1 h2) (Ne.symm hMm))
    constructor
    · have hnn : 0 ≤ (v - m) * (hi - lo) / (M - m) :=
        div_nonneg (mul_nonneg (by linarith) (by linarith)) (le_of_lt hpos)
      linarith
    · have hle : (v - m) * (hi - lo) ≤ (M - m) * (hi - lo) :=
        mul_le_mul_of_nonneg_right (by linarith) (by linarith)
      have h3 : (v - m) * (hi - lo) / (M - m) ≤ (M - m) * (hi - lo) / (M - m) :=
        (div_le_div_right hpos).2 hle
      have h4 : (M - m) * (hi - lo) / (M - m) = hi - lo :=
        mul_div_cancel_left₀ _ (ne_of_gt hpos)
      linarith

theorem foldl_min_le (t : List ℚ) :
    ∀ a : ℚ, t.foldl min a ≤ a ∧ ∀ v ∈ t, t.foldl min a ≤ v := by
  induction t with
  | nil => intro a; exact ⟨le_refl a, by simp⟩
  | cons x t ih =>
    intro a
    simp only [List.foldl_cons]
    obtain ⟨h1, h2⟩ := ih (min a x)
    refine ⟨le_trans h1 (min_le_left a x), ?_⟩
    intro v hv
    rcases List.mem_cons.1 hv with rfl | hv'
    · exact le_trans h1 (min_le_right a v)
    · exact h2 v hv'

theorem le_foldl_max (t : List ℚ) :
    ∀ a : ℚ, a ≤ t.foldl max a ∧ ∀ v ∈ t, v ≤ t.foldl max a := by
  induction t with
  | nil => intro a; exact ⟨le_refl a, by simp⟩
  | cons x t ih =>
    intro a
    simp only [List.foldl_cons]
    obtain ⟨h1, h2⟩ := ih (max a x)
    refine ⟨le_trans (le_max_left a x) h1, ?_⟩
    intro v hv
    rcases List.mem_cons.1 hv with rfl | hv'
    · exact le_trans (le_max_right a v) h1
    · exact h2 v hv'

theorem rowMin_le_mem (row : List ℚ) : ∀ v ∈ row, rowMin row ≤ v := by
  cases row with
  | nil => simp
  | cons a t =>
    intro v hv
    unfold rowMin
    rcases List.mem_cons.1 hv with rfl | hv'
    · exact (foldl_min_le t v).1
    · exact (foldl_min_le t a).2 v hv'

theorem mem_le_rowMax (row : List ℚ) : ∀ v ∈ row, v ≤ rowMax row := by
  cases row with
  | nil => simp
  | cons a t =>
    intro v hv
    unfold rowMax
    rcases List.mem_cons.1 hv with rfl | hv'
    · exact (le_foldl_max t v).1
    · exact (le_foldl_max t a).2 v hv'

/-- Each indexed pair holds the row's value at its column. -/
theorem pairsFrom_mem_facts :
    ∀ (l : List ℚ) (n : ℕ) (p : ℚ × ℕ), p ∈ pairsFrom n l →
      p.1 ∈ l ∧ l.getD (p.2 - n) 0 = p.1 ∧ n ≤ p.2 := by
  intro l
  induction l with
  | nil => intro n p hp; exact absurd hp (List.not_mem_nil p)
  | cons a l ih =>
    intro n p hp
    rcases List.mem_cons.1 hp with rfl | hp'
    · exact ⟨List.mem_cons_self a l, by simp, le_refl n⟩
    · obtain ⟨h1, h2, h3⟩ := ih (n + 1) p hp'
      refine ⟨List.mem_cons_of_mem a h1, ?_, by omega⟩
      have hstep : p.2 - n = (p.2 - (n + 1)) + 1 := by omega
      rw [hstep, List.getD_cons_succ, h2]

/-- Membership in a normalized in-memory row. -/
theorem mem_matchInMem_norm_row (cdist : Mat → Mat → Mat) (xs ys : Mat)
    (lim : ℕ) (lo hi : ℚ) (r : ℕ) (hr : r < (cdist xs ys).length) :
    ∀ p ∈ (matchInMem cdist xs ys lim (some (lo, hi))).getD r [],
      ∃ v i, (v, i) ∈ pairsOf ((cdist xs ys).getD r []) ∧
        p = (minmaxN (lo, hi) (rowMin ((cdist xs ys).getD r []),
          rowMax ((cdist xs ys).getD r [])) v, i) := by
  intro p hp
  rw [matchInMem_getD cdist xs ys lim (some (lo, hi)) r hr] at hp
  obtain ⟨⟨v, i⟩, hvi, rfl⟩ := List.mem_map.1 hp
  refine ⟨v, i, ?_, rfl⟩
  have h1 : (v, i) ∈ sortP (pairsOf ((cdist xs ys).getD r [])) := by
    unfold topkRow at hvi
    exact List.mem_of_mem_take hvi
  exact (sortP_perm _).mem_iff.1 h1

/-- Every element of a chunk contribution is a lifted finite pair. -/
theorem mem_chunkContrib_lift (lim : ℕ) (norm : Option (ℚ × ℚ)) (off : ℕ)
    (c : List ℚ) : ∀ p ∈ chunkContrib lim norm off c,
      ∃ (v : ℚ) (i : ℕ), p = ((v : Val), i) := by
  intro p hp
  unfold chunkContrib at hp
  obtain ⟨q, _, rfl⟩ := List.mem_map.1 hp
  exact ⟨q.1, q.2 + off, rfl⟩

/-- Membership in a normalized chunk contribution. -/
theorem mem_chunkContrib_norm (lim : ℕ) (tr : ℚ × ℚ) (off : ℕ) (c : List ℚ) :
    ∀ p ∈ chunkContrib lim (some tr) off c,
      ∃ v i, (v, i) ∈ topkRow lim c ∧
        p = (((minmaxN tr (obsOf ((topkRow lim c).map Prod.fst)) v : ℚ) : Val),
          i + off) := by
  intro p hp
  unfold chunkContrib at hp
  simp only [] at hp
  obtain ⟨q, hq, rfl⟩ := List.mem_map.1 hp
  obtain ⟨⟨v, i⟩, hvi, rfl⟩ := List.mem_map.1 hq
  exact ⟨v, i, hvi, rfl⟩

theorem chunkContrib_length (lim : ℕ) (norm : Option (ℚ × ℚ)) (off : ℕ)
    (c : List ℚ) : (chunkContrib lim norm off c).length = min lim c.length := by
  unfold chunkContrib topkRow
  cases norm with
  | none =>
    simp only [List.length_map, List.length_take, sortP_length]
    unfold pairsOf
    rw [pairsFrom_length]
  | some tr =>
    simp only [List.length_map, List.length_take, sortP_length]
    unfold pairsOf
    rw [pairsFrom_length]

/-- The merged candidates number at least `min lim (target length)`. -/
theorem flatten_contrib_length_ge (B : ℕ) (lim : ℕ) (norm : Option (ℚ × ℚ))
    (hB : 0 < B) :
    ∀ (f off : ℕ) (l : List ℚ), l.length ≤ f →
      min lim l.length ≤
        (((batchAux B f off l).map
          (fun cb => chunkContrib lim norm cb.2 cb.1)).flatten).length := by
  intro f
  induction f with
  | zero =>
    intro off l hl
    rw [List.eq_nil_of_length_eq_zero (Nat.le_zero.1 hl)]
    simp
  | succ f ih =>
    intro off l hl
    cases l with
    | nil => simp
    | cons x l' =>
      rw [batchAux]
      simp only [List.map_cons, List.flatten_cons, List.length_append,
        chunkContrib_length]
      have h1 := ih (off + B) ((x :: l').drop B)
        (by rw [List.length_drop]; simp only [List.length_cons] at hl ⊢; omega)
      rw [List.length_take, List.length_drop] at *
      omega

/-- When the effective limit does not exceed the target length, the merged
candidates number at least the limit. -/
theorem contrib_flatten_len_ge (lim B : ℕ) (hB : 0 < B)
    (norm : Option (ℚ × ℚ)) (drow : List ℚ) (hlim : lim ≤ drow.length) :
    lim ≤ (((batchesOf B drow).map (fun cb =>
      chunkContrib lim norm cb.2 cb.1)).flatten).length := by
  have h := flatten_contrib_length_ge B lim norm hB drow.length 0 drow (le_refl _)
  rw [min_eq_left hlim] at h
  unfold batchesOf
  exact h

/-- When the effective limit does not exceed the target length, the
`(np.inf, 0)` padding slots never survive the merge. -/
theorem take_sortP_contrib_pads (lim B : ℕ) (hB : 0 < B)
    (norm : Option (ℚ × ℚ)) (drow : List ℚ) (hlim : lim ≤ drow.length) :
    (sortP ((((batchesOf B drow).map (fun cb =>
        chunkContrib lim norm cb.2 cb.1)).flatten)
      ++ List.replicate lim ((⊤ : Val), 0))).take lim
    = (sortP (((batchesOf B drow).map (fun cb =>
        chunkContrib lim norm cb.2 cb.1)).flatten)).take lim := by
  apply take_sortP_append_of_counted
  intro y hy
  rw [List.eq_of_mem_replicate hy]
  have hall : ∀ z ∈ ((batchesOf B drow).map (fun cb =>
      chunkContrib lim norm cb.2 cb.1)).flatten,
      (fun z => decide (leP z ((⊤ : Val), 0))) z = true := by
    intro z hz
    obtain ⟨c, hc, hzc⟩ := List.mem_flatten.1 hz
    obtain ⟨cb, hcb, rfl⟩ := List.mem_map.1 hc
    obtain ⟨w, j, rfl⟩ := mem_chunkContrib_lift lim norm cb.2 cb.1 z hzc
    simp only [decide_eq_true_eq]
    exact Or.inl (WithTop.coe_lt_top w)
  rw [List.countP_eq_length.2 hall]
  exact contrib_flatten_len_ge lim B hB norm drow hlim

/-- C6 counterexample: with `normalization = (1, 0)` on the batched online
path, scores are normalized per chunk before merging, so the attached
candidate with the smallest raw distance (target 1, raw distance 10, score
1/11) scores strictly below a farther candidate (target 4, raw distance 21,
score 79/80); the claim that the closest match receives the highest score
fails on the online path. -/
theorem C6_counterexample :
    (matchOnline (pwDist (fun _ y => y.headD 0)) [[0]]
        [[(0 : ℚ)], [10], [11], [20], [21], [100]] 4 (some (1, 0)) 3).getD 0 []
      = [(((0 : ℚ) : Val), 2), (((0 : ℚ) : Val), 5),
         (((1/11 : ℚ) : Val), 1), (((79/80 : ℚ) : Val), 4)]
    ∧ (10 : ℚ) < 21 ∧ ((1/11 : ℚ) : Val) < ((79/80 : ℚ) : Val) := by
  refine ⟨by decide, by decide, ?_⟩
  rw [WithTop.coe_lt_coe]
  decide

/-- C6 (amended): with `normalization = (1, 0)` the in-memory path emits
scores antitone in the raw distance, so the closest candidate of a row gets
the highest score; with `normalization = (0, 1)` every emitted score lies in
`[0, 1]` on the in-memory path, and on the batched online path as well
whenever the effective limit does not exceed the target size.  (The
`(1, 0)` highest-score property fails on the online path, which normalizes
per chunk before merging: see the counterexample.) -/
theorem C6_normalization_semantics (cdist : Mat → Mat → Mat) (xs ys : Mat)
    (lim r : ℕ) (d : List ℚ → List ℚ → ℚ) (B : ℕ) (hB : 0 < B)
    (hr : r < (cdist xs ys).length) (hr2 : r < xs.length)
    (hlim : lim ≤ ys.length) :
    (∀ p ∈ (matchInMem cdist xs ys lim (some (1, 0))).getD r [],
      ∀ q ∈ (matchInMem cdist xs ys lim (some (1, 0))).getD r [],
        ((cdist xs ys).getD r []).getD p.2 0
          ≤ ((cdist xs ys).getD r []).getD q.2 0 → q.1 ≤ p.1)
    ∧ (∀ p ∈ (matchInMem cdist xs ys lim (some (0, 1))).getD r [],
        0 ≤ p.1 ∧ p.1 ≤ 1)
    ∧ (∀ p ∈ (matchOnline (pwDist d) xs ys lim (some (0, 1)) B).getD r [],
        ((0 : ℚ) : Val) ≤ p.1 ∧ p.1 ≤ ((1 : ℚ) : Val)) := by
  refine ⟨?_, ?_, ?_⟩
  · intro p hp q hq hle
    obtain ⟨vp, ip, hvp, hpe⟩ :=
      mem_matchInMem_norm_row cdist xs ys lim 1 0 r hr p hp
    obtain ⟨vq, iq, hvq, hqe⟩ :=
      mem_matchInMem_norm_row cdist xs ys lim 1 0 r hr q hq
    obtain ⟨hvpm, hvpg, -⟩ :=
      pairsFrom_mem_facts ((cdist xs ys).getD r []) 0 (vp, ip) hvp
    obtain ⟨hvqm, hvqg, -⟩ :=
      pairsFrom_mem_facts ((cdist xs ys).getD r []) 0 (vq, iq) hvq
    subst hpe hqe
    simp only [Nat.sub_zero] at hvpg hvqg
    rw [hvpg, hvqg] at hle
    have hmM : rowMin ((cdist xs ys).getD r [])
        ≤ rowMax ((cdist xs ys).getD r []) :=
      le_trans (rowMin_le_mem _ vp hvpm) (mem_le_rowMax _ vp hvpm)
    exact minmaxN_antitone 1 0 _ _ vp vq zero_le_one hmM hle
  · intro p hp
    obtain ⟨v, i, hv, hpe⟩ :=
      mem_matchInMem_norm_row cdist xs ys lim 0 1 r hr p hp
    obtain ⟨hvm, -, -⟩ := pairsFrom_mem_facts ((cdist xs ys).getD r []) 0 (v, i) hv
    subst hpe
    exact minmaxN_mem 0 1 _ _ v zero_le_one (rowMin_le_mem _ v hvm)
      (mem_le_rowMax _ v hvm)
  · intro p hp
    rw [matchOnline_pw_getD d xs ys lim B (some (0, 1)) r hr2] at hp
    rw [take_sortP_contrib_pads lim B hB (some (0, 1)) (ys.map (d (xs.getD r [])))
      (by rw [List.length_map]; exact hlim)] at hp
    have hpmem : p ∈ ((batchesOf B (ys.map (d (xs.getD r [])))).map (fun cb =>
        chunkContrib lim (some (0, 1)) cb.2 cb.1)).flatten :=
      (sortP_perm _).mem_iff.1 (List.mem_of_mem_take ((sortP_perm _).mem_iff.1 hp))
    obtain ⟨c, hc, hpc⟩ := List.mem_flatten.1 hpmem
    obtain ⟨cb, hcb, rfl⟩ := List.mem_map.1 hc
    obtain ⟨v, i, hvi, hpe⟩ := mem_chunkContrib_norm lim (0, 1) cb.2 cb.1 p hpc
    subst hpe
    have hvmem : v ∈ (topkRow lim cb.1).map Prod.fst :=
      List.mem_map_of_mem Prod.fst hvi
    have hbounds := minmaxN_mem 0 1 (rowMin ((topkRow lim cb.1).map Prod.fst))
      (rowMax ((topkRow lim cb.1).map Prod.fst)) v zero_le_one
      (rowMin_le_mem _ v hvmem) (mem_le_rowMax _ v hvmem)
    exact ⟨WithTop.coe_le_coe.2 hbounds.1, WithTop.coe_le_coe.2 hbounds.2⟩

/-- C6 witness: both matchers at a concrete input, with the hypotheses
discharged. -/
theorem C6_normalization_semantics_witness :
    0 < 1 ∧ 0 < (pwDist sqeuclidean [[(0 : ℚ)]] [[(0 : ℚ)], [3]]).length ∧
    0 < ([[(0 : ℚ)]] : Mat).length ∧ 1 ≤ ([[(0 : ℚ)], [3]] : Mat).length ∧
    ((∀ p ∈ (matchInMem (pwDist sqeuclidean) [[(0 : ℚ)]] [[(0 : ℚ)], [3]] 1
        (some (1, 0))).getD 0 [],
      ∀ q ∈ (matchInMem (pwDist sqeuclidean) [[(0 : ℚ)]] [[(0 : ℚ)], [3]] 1
          (some (1, 0))).getD 0 [],
        ((pwDist sqeuclidean [[(0 : ℚ)]] [[(0 : ℚ)], [3]]).getD 0 []).getD p.2 0
          ≤ ((pwDist sqeuclidean [[(0 : ℚ)]] [[(0 : ℚ)], [3]]).getD 0 []).getD q.2 0
          → q.1 ≤ p.1)
    ∧ (∀ p ∈ (matchInMem (pwDist sqeuclidean) [[(0 : ℚ)]] [[(0 : ℚ)], [3]] 1
        (some (0, 1))).getD 0 [], 0 ≤ p.1 ∧ p.1 ≤ 1)
    ∧ (∀ p ∈ (matchOnline (pwDist sqeuclidean) [[(0 : ℚ)]] [[(0 : ℚ)], [3]] 1
        (some (0, 1)) 1).getD 0 [],
        ((0 : ℚ) : Val) ≤ p.1 ∧ p.1 ≤ ((1 : ℚ) : Val))) :=
  ⟨by decide, by decide, by decide, by decide,
    C6_normalization_semantics (pwDist sqeuclidean) [[(0 : ℚ)]] [[(0 : ℚ)], [3]]
      1 0 sqeuclidean 1 (by decide) (by decide) (by decide) (by decide)⟩

/-! ## Claim C7: self-exclusion inflation -/

theorem pairsFrom_snd_nodup (l : List ℚ) :
    ∀ n, ((pairsFrom n l).map Prod.snd).Nodup := by
  induction l with
  | nil => intro n; simp [pairsFrom]
  | cons a l ih =>
    intro n
    rw [show pairsFrom n (a :: l) = (a, n) :: pairsFrom (n + 1) l from rfl,
      List.map_cons]
    refine List.nodup_cons.2 ⟨?_, ih (n + 1)⟩
    intro hmem
    obtain ⟨p, hp, hpn⟩ := List.mem_map.1 hmem
    have := (pairsFrom_mem_facts l (n + 1) p hp).2.2
    omega

theorem pairsFrom_snd_lt (l : List ℚ) :
    ∀ (n : ℕ) (p : ℚ × ℕ), p ∈ pairsFrom n l → p.2 < n + l.length := by
  induction l with
  | nil => intro n p hp; exact absurd hp (List.not_mem_nil p)
  | cons a l ih =>
    intro n p hp
    rcases List.mem_cons.1 hp with rfl | hp'
    · simp
    · have := ih (n + 1) p hp'
      simp only [List.length_cons]
      omega

theorem topkRow_length (k : ℕ) (row : List ℚ) :
    (topkRow k row).length = min k row.length := by
  unfold topkRow
  rw [List.length_take, sortP_length]
  unfold pairsOf
  rw [pairsFrom_length]

/-- The retained column indices of a top-k row are distinct. -/
theorem topkRow_snd_nodup (k : ℕ) (row : List ℚ) :
    ((topkRow k row).map Prod.snd).Nodup := by
  unfold topkRow
  rw [List.map_take]
  refine List.Nodup.sublist (List.take_sublist _ _) ?_
  exact ((sortP_perm (pairsOf row)).map Prod.snd).nodup_iff.2
    (pairsFrom_snd_nodup row 0)

/-- The retained column indices of a top-k row are in range. -/
theorem topkRow_snd_lt (k : ℕ) (row : List ℚ) :
    ∀ p ∈ topkRow k row, p.2 < row.length := by
  intro p hp
  have h1 : p ∈ sortP (pairsOf row) := List.mem_of_mem_take hp
  have h2 : p ∈ pairsOf row := (sortP_perm _).mem_iff.1 h1
  have h3 := pairsFrom_snd_lt row 0 p h2
  omega

/-- The column indices a chunk contributes are the top-k indices of the
chunk shifted by the batch offset, for either normalization setting. -/
theorem chunkContrib_snd (lim : ℕ) (norm : Option (ℚ × ℚ)) (off : ℕ)
    (c : List ℚ) :
    (chunkContrib lim norm off c).map Prod.snd
      = ((topkRow lim c).map Prod.snd).map (fun i => i + off) := by
  unfold chunkContrib
  cases norm with
  | none =>
    rw [List.map_map, List.map_map]
    exact List.map_congr_left (fun p _ => rfl)
  | some tr =>
    rw [List.map_map, List.map_map, List.map_map]
    exact List.map_congr_left (fun p _ => rfl)

/-- The column indices a chunk contributes are distinct and lie in the
chunk's offset window. -/
theorem chunkContrib_snd_facts (lim : ℕ) (norm : Option (ℚ × ℚ)) (off : ℕ)
    (c : List ℚ) :
    ((chunkContrib lim norm off c).map Prod.snd).Nodup
    ∧ ∀ j ∈ (chunkContrib lim norm off c).map Prod.snd,
        off ≤ j ∧ j < off + c.length := by
  rw [chunkContrib_snd]
  constructor
  · exact (topkRow_snd_nodup lim c).map (add_left_injective off)
  · intro j hj
    obtain ⟨i, hi, rfl⟩ := List.mem_map.1 hj
    obtain ⟨p, hp, rfl⟩ := List.mem_map.1 hi
    have := topkRow_snd_lt lim c p hp
    exact ⟨Nat.le_add_left off p.2, by omega⟩

/-- Across the batches of the online matcher the contributed column indices
are distinct and in range: the batch windows are disjoint. -/
theorem batch_snd_facts (B lim : ℕ) (norm : Option (ℚ × ℚ)) (hB : 0 < B) :
    ∀ (f off : ℕ) (l : List ℚ), l.length ≤ f →
      ((((batchAux B f off l).map (fun cb =>
        chunkContrib lim norm cb.2 cb.1)).flatten).map Prod.snd).Nodup
      ∧ ∀ j ∈ (((batchAux B f off l).map (fun cb =>
          chunkContrib lim norm cb.2 cb.1)).flatten).map Prod.snd,
          off ≤ j ∧ j < off + l.length := by
  intro f
  induction f with
  | zero =>
    intro off l hl
    rw [List.eq_nil_of_length_eq_zero (Nat.le_zero.1 hl)]
    exact ⟨by simp [batchAux], by simp [batchAux]⟩
  | succ f ih =>
    intro off l hl
    cases l with
    | nil => exact ⟨by simp [batchAux], by simp [batchAux]⟩
    | cons x l' =>
      rw [batchAux]
      simp only [List.map_cons, List.flatten_cons, List.map_append]
      obtain ⟨ihnd, ihbd⟩ := ih (off + B) ((x :: l').drop B)
        (by simp only [List.length_drop, List.length_cons] at hl ⊢; omega)
      obtain ⟨cnd, cbd⟩ := chunkContrib_snd_facts lim norm off ((x :: l').take B)
      constructor
      · rw [List.nodup_append]
        refine ⟨cnd, ihnd, ?_⟩
        intro j hj1 hj2
        have h1 := (cbd j hj1).2
        have h2 := (ihbd j hj2).1
        rw [List.length_take] at h1
        simp only [List.length_cons] at h1
        omega
      · intro j hj
        rcases List.mem_append.1 hj with hj1 | hj2
        · have h1 := cbd j hj1
          rw [List.length_take] at h1
          simp only [List.length_cons] at h1 ⊢
          omega
        · have h2 := ihbd j hj2
          rw [List.length_drop] at h2
          simp only [List.length_cons] at h2 ⊢
          omega

theorem matchInMem_length (cdist : Mat → Mat → Mat) (xs ys : Mat) (lim : ℕ)
    (norm : Option (ℚ × ℚ)) :
    (matchInMem cdist xs ys lim norm).length = (cdist xs ys).length := by
  unfold matchInMem
  exact List.length_map _ _

/-- Shape of a matcher row over a pointwise Distance Provider when the
effective limit does not exceed the target size: exactly `eL` entries,
distinct column indices, all in range. -/
theorem mem_matcherRows_shape (d : List ℚ → List ℚ → ℚ) (xs ys : Mat)
    (eL : ℕ) (norm : Option (ℚ × ℚ)) (batchN : Option ℕ)
    (hb : ∀ b, batchN = some b → 0 < b) (hlim : eL ≤ ys.length) :
    ∀ row ∈ matcherRows (pwDist d) xs ys eL norm batchN,
      row.length = eL ∧ (row.map Prod.snd).Nodup
      ∧ ∀ p ∈ row, p.2 < ys.length := by
  intro row hrow
  unfold matcherRows at hrow
  cases batchN with
  | none =>
    obtain ⟨r0, hr0, rfl⟩ := List.mem_map.1 hrow
    obtain ⟨i, hi, hr0i⟩ := List.mem_iff_getElem.1 hr0
    have hix : i < (pwDist d xs ys).length := by
      rw [← matchInMem_length (pwDist d) xs ys eL norm]
      exact hi
    have hixs : i < xs.length := by
      have h1 : (pwDist d xs ys).length = xs.length := List.length_map _ _
      omega
    have hr0d : r0 = (matchInMem (pwDist d) xs ys eL norm).getD i [] := by
      rw [List.getD_eq_getElem _ _ hi, hr0i]
    rw [matchInMem_getD (pwDist d) xs ys eL norm i hix] at hr0d
    rw [pwDist_getD d xs ys i hixs] at hr0d
    have hdlen : (ys.map (d (xs.getD i []))).length = ys.length :=
      List.length_map _ _
    have hsnd : r0.map Prod.snd
        = (topkRow (min eL ys.length) (ys.map (d (xs.getD i [])))).map Prod.snd := by
      cases norm with
      | none => rw [hr0d]
      | some tr =>
        rw [hr0d, List.map_map]
        exact List.map_congr_left (fun p _ => rfl)
    have hlen : r0.length
        = (topkRow (min eL ys.length) (ys.map (d (xs.getD i [])))).length := by
      cases norm with
      | none => rw [hr0d]
      | some tr => rw [hr0d, List.length_map]
    have hsnd2 : (r0.map liftPair).map Prod.snd = r0.map Prod.snd := by
      rw [List.map_map]
      exact List.map_congr_left (fun p _ => rfl)
    refine ⟨?_, ?_, ?_⟩
    · rw [List.length_map, hlen, topkRow_length, hdlen]
      omega
    · rw [hsnd2, hsnd]
      exact topkRow_snd_nodup _ _
    · intro p hp
      have hps : p.2 ∈ (r0.map liftPair).map Prod.snd :=
        List.mem_map_of_mem Prod.snd hp
      rw [hsnd2, hsnd] at hps
      obtain ⟨p', hp', hp2⟩ := List.mem_map.1 hps
      have := topkRow_snd_lt (min eL ys.length) (ys.map (d (xs.getD i []))) p' hp'
      omega
  | some B =>
    have hB : 0 < B := hb B rfl
    obtain ⟨i, hi, hri⟩ := List.mem_iff_getElem.1 hrow
    have hshape : ∀ yb ∈ batchesOf B ys, (pwDist d xs yb.1).length = xs.length :=
      fun yb _ => List.length_map _ _
    have hixs : i < xs.length := by
      rw [← matchOnline_length (pwDist d) xs ys eL norm B hshape]
      exact hi
    have hrd : row = (matchOnline (pwDist d) xs ys eL norm B).getD i [] := by
      rw [List.getD_eq_getElem _ _ hi, hri]
    rw [matchOnline_pw_getD d xs ys eL B norm i hixs] at hrd
    have hdlen : (ys.map (d (xs.getD i []))).length = ys.length :=
      List.length_map _ _
    have hlim' : eL ≤ (ys.map (d (xs.getD i []))).length := by omega
    rw [take_sortP_contrib_pads eL B hB norm (ys.map (d (xs.getD i []))) hlim']
      at hrd
    have hflen := contrib_flatten_len_ge eL B hB norm
      (ys.map (d (xs.getD i []))) hlim'
    have hfacts := batch_snd_facts B eL norm hB
      (ys.map (d (xs.getD i []))).length 0 (ys.map (d (xs.getD i []))) (le_refl _)
    have fnd : ((((batchesOf B (ys.map (d (xs.getD i [])))).map (fun cb =>
        chunkContrib eL norm cb.2 cb.1)).flatten).map Prod.snd).Nodup := by
      unfold batchesOf
      exact hfacts.1
    have fbd : ∀ j ∈ (((batchesOf B (ys.map (d (xs.getD i [])))).map (fun cb =>
        chunkContrib eL norm cb.2 cb.1)).flatten).map Prod.snd,
        j < ys.length := by
      intro j hj
      have h2 : j < 0 + (ys.map (d (xs.getD i []))).length := by
        unfold batchesOf at hj
        exact (hfacts.2 j hj).2
      omega
    refine ⟨?_, ?_, ?_⟩
    · rw [hrd, sortP_length, List.length_take, sortP_length]
      omega
    · rw [hrd]
      have h5 := ((sortP_perm ((sortP (((batchesOf B (ys.map (d (xs.getD i [])))).map
        (fun cb => chunkContrib eL norm cb.2 cb.1)).flatten)).take eL)).map
          Prod.snd).nodup_iff
      refine h5.2 ?_
      rw [List.map_take]
      refine List.Nodup.sublist (List.take_sublist _ _) ?_
      exact ((sortP_perm _).map Prod.snd).nodup_iff.2 fnd
    · intro p hp
      rw [hrd] at hp
      have h6 : p ∈ (sortP (((batchesOf B (ys.map (d (xs.getD i [])))).map
          (fun cb => chunkContrib eL norm cb.2 cb.1)).flatten)).take eL :=
        (sortP_perm _).mem_iff.1 hp
      have h7 := (sortP_perm _).mem_iff.1 (List.mem_of_mem_take h6)
      exact fbd p.2 (List.mem_map_of_mem Prod.snd h7)

/-- `Document(id=...)` and `rhv[i]` agree on the id. -/
theorem resolveDoc_id (rhv : List Doc) (oi : Bool) (i : ℕ) :
    (resolveDoc rhv oi i).id = (rhv.getD i dfltDoc).id := by
  unfold resolveDoc
  cases oi <;> simp

/-- With `exclude_self` active, the assembly attaches exactly the non-self
candidates until the stop limit, starting below it. -/
theorem buildMatches_length_eq (lids : List String) (rhv : List Doc)
    (mName : String) (stop : ℕ) (oi : Bool) (q : Doc) :
    ∀ (row : List (Val × ℕ)) (num : ℕ), num < stop →
      (buildMatches lids rhv mName stop true oi q row num).length
        = min (stop - num)
            (row.countP (fun p => !decide ((rhv.getD p.2 dfltDoc).id = q.id))) := by
  intro row
  induction row with
  | nil => intro num hnum; simp [buildMatches]
  | cons pr rest ih =>
    intro num hnum
    obtain ⟨dv, i⟩ := pr
    have hstep : buildMatches lids rhv mName stop true oi q ((dv, i) :: rest) num
        = if (detachIfShared lids (resolveDoc rhv oi i)).id = q.id
            ∧ (true : Bool) = true then
            buildMatches lids rhv mName stop true oi q rest num
          else if num + 1 ≥ stop then
            [(detachIfShared lids (resolveDoc rhv oi i)).withScore mName dv]
          else (detachIfShared lids (resolveDoc rhv oi i)).withScore mName dv
            :: buildMatches lids rhv mName stop true oi q rest (num + 1) := rfl
    have hid : (detachIfShared lids (resolveDoc rhv oi i)).id
        = (rhv.getD i dfltDoc).id := by
      rw [detachIfShared_id, resolveDoc_id]
    rw [hstep, List.countP_cons]
    by_cases hself : (rhv.getD i dfltDoc).id = q.id
    · rw [if_pos ⟨by rw [hid]; exact hself, rfl⟩]
      have hpa : (!decide ((rhv.getD i dfltDoc).id = q.id)) = false := by
        rw [decide_eq_true hself]; rfl
      simp only [hpa, Bool.false_eq_true, if_false, Nat.add_zero]
      exact ih num hnum
    · rw [if_neg (fun hc => hself (hid.symm.trans hc.1))]
      have hpa : (!decide ((rhv.getD i dfltDoc).id = q.id)) = true := by
        rw [decide_eq_false hself]; rfl
      simp only [hpa, if_true]
      by_cases hstop2 : num + 1 ≥ stop
      · rw [if_pos hstop2]
        simp only [List.length_singleton]
        omega
      · rw [if_neg hstop2]
        rw [List.length_cons, ih (num + 1) (by omega)]
        omega

theorem map_getD_range :
    ∀ l : List Doc, (List.range l.length).map (fun i => l.getD i dfltDoc) = l := by
  intro l
  induction l with
  | nil => rfl
  | cons a t ih =>
    rw [List.length_cons, List.range_succ_eq_map, List.map_cons, List.map_map]
    have h1 : ((fun i => (a :: t).getD i dfltDoc) ∘ Nat.succ)
        = (fun i => t.getD i dfltDoc) := funext fun i => List.getD_cons_succ
    rw [h1, ih]
    rfl

theorem countP_not_add {γ : Type} (pb : γ → Bool) :
    ∀ l : List γ, l.countP (fun a => !pb a) + l.countP pb = l.length := by
  intro l
  induction l with
  | nil => rfl
  | cons x l ih =>
    rw [List.countP_cons, List.countP_cons, List.length_cons, ← ih]
    cases hx : pb x
    · rw [if_pos (show (!false) = true from rfl),
        if_neg (show ¬(false = true) from Bool.false_ne_true)]
      omega
    · rw [if_neg (show ¬((!true) = true) from Bool.false_ne_true),
        if_pos (show true = true from rfl)]
      omega

/-- With at most one target record sharing the query's id, a candidate row
with distinct in-range indices holds at most one self candidate. -/
theorem countP_nonself_ge (rhv : List Doc) (q : Doc) (row : List (Val × ℕ))
    (hnd : (row.map Prod.snd).Nodup) (hlt : ∀ p ∈ row, p.2 < rhv.length)
    (hdup : rhv.countP (fun dd => decide (dd.id = q.id)) ≤ 1) :
    row.length - 1
      ≤ row.countP (fun p => !decide ((rhv.getD p.2 dfltDoc).id = q.id)) := by
  have h1 : (row.map Prod.snd).countP
        (fun i => decide ((rhv.getD i dfltDoc).id = q.id))
      = row.countP (fun p => decide ((rhv.getD p.2 dfltDoc).id = q.id)) :=
    List.countP_map _ _ _
  have hsub : (row.map Prod.snd) ⊆ List.range rhv.length := by
    intro j hj
    obtain ⟨p, hp, rfl⟩ := List.mem_map.1 hj
    exact List.mem_range.2 (hlt p hp)
  have h2 : (row.map Prod.snd).countP
        (fun i => decide ((rhv.getD i dfltDoc).id = q.id))
      ≤ (List.range rhv.length).countP
        (fun i => decide ((rhv.getD i dfltDoc).id = q.id)) :=
    List.Subperm.countP_le _ (hnd.subperm hsub)
  have h3 : (List.range rhv.length).countP
        (fun i => decide ((rhv.getD i dfltDoc).id = q.id))
      = rhv.countP (fun dd => decide (dd.id = q.id)) := by
    conv_rhs => rw [← map_getD_range rhv]
    rw [List.countP_map]
    rfl
  have hca := countP_not_add
    (fun p : Val × ℕ => decide ((rhv.getD p.2 dfltDoc).id = q.id)) row
  omega

/-- A successful dispatch of a callable metric: the validations passed and
the result is the corresponding `matchBody`. -/
theorem matchOp_fn_ok {lhv rhv : List Doc} {fname : String}
    {f : Mat → Mat → Mat} {nc : Mat → Mat → Mat} {limit : Option ℤ}
    {norm : Option (ℚ × ℚ)} {mn : Option String} {bs : Option ℤ}
    {es oi : Bool} {res : List Doc}
    (h : matchOp lhv rhv (.fn fname f) nc limit norm mn bs es oi = .ok res)
    (hl : lhv ≠ []) (hr : rhv ≠ []) :
    validatePos limit = true ∧ validatePos bs = true ∧
    res = matchBody lhv rhv f (mn.getD fname) (limit.map Int.toNat) norm
      (bs.map Int.toNat) es oi := by
  unfold matchOp at h
  by_cases h1 : validatePos limit = false
  · rw [if_pos h1] at h
    exact absurd h (by simp)
  · rw [if_neg h1] at h
    by_cases h2 : validatePos bs = false
    · rw [if_pos h2] at h
      exact absurd h (by simp)
    · rw [if_neg h2] at h
      have hemp : ¬(lhv.isEmpty ∨ rhv.isEmpty) := by
        simp only [List.isEmpty_iff]
        push_neg
        exact ⟨hl, hr⟩
      rw [if_neg hemp] at h
      refine ⟨by revert h1; cases validatePos limit <;> simp,
        by revert h2; cases validatePos bs <;> simp, ?_⟩
      simpa using h.symm

/-- C7: with `exclude_self` active the internal candidate limit is the
requested limit plus one; and when the target holds at least `L + 1`
records, of which at most one shares the query's id, every source record
ends with exactly `L` non-self matches (stated for a pointwise Distance
Provider, both in-memory and online paths). -/
theorem C7_exclude_self_exact (lhv rhv : List Doc) (fname nm : String)
    (d : List ℚ → List ℚ → ℚ) (nc : Mat → Mat → Mat)
    (norm : Option (ℚ × ℚ)) (bs : Option ℤ) (oi : Bool)
    (res : List Doc) (L : ℕ)
    (hl : lhv ≠ []) (hr : rhv ≠ [])
    (hm : L + 1 ≤ rhv.length)
    (hdup : ∀ q ∈ lhv, rhv.countP (fun dd => decide (dd.id = q.id)) ≤ 1)
    (h : matchOp lhv rhv (.fn fname (pwDist d)) nc (some (L : ℤ)) norm
      (some nm) bs true oi = .ok res) :
    eLimitOf (some L) rhv.length true = L + 1 ∧
    ∀ q' ∈ res, q'.matchList.length = L := by
  obtain ⟨hv1, hv2, hres⟩ := matchOp_fn_ok h hl hr
  have hL : 0 < L := by
    simp only [validatePos, decide_eq_true_eq] at hv1
    exact_mod_cast hv1
  have hbPos : ∀ bN, bs.map Int.toNat = some bN → 0 < bN := by
    intro bN hbN
    cases bs with
    | none => simp at hbN
    | some b =>
      simp only [Option.map, decide_eq_true_eq] at hbN
      simp only [validatePos, decide_eq_true_eq] at hv2
      cases hbN
      omega
  refine ⟨rfl, ?_⟩
  subst hres
  intro q' hq'
  rw [show Option.map Int.toNat (some ((L : ℕ) : ℤ)) = some L by simp] at hq'
  obtain ⟨q, row, hq, hrow, rfl⟩ := mem_matchBody hq'
  rw [Doc.matchList_setMatches]
  have he : eLimitOf (some L) rhv.length true = L + 1 := rfl
  rw [he] at hrow
  have hys : (rhv.map Doc.emb).length = rhv.length := List.length_map _ _
  obtain ⟨hrl, hrnd, hrbd⟩ := mem_matcherRows_shape d (lhv.map Doc.emb)
    (rhv.map Doc.emb) (L + 1) norm (bs.map Int.toNat) hbPos
    (by rw [hys]; exact hm) row hrow
  have hst : stopOf (some L) rhv.length true = L := rfl
  rw [buildMatches_length_eq (ids lhv) rhv (Option.getD (some nm) fname)
    (stopOf (some L) rhv.length true) oi q row 0 (by rw [hst]; exact hL)]
  have hge := countP_nonself_ge rhv q row hrnd
    (fun p hp => by have := hrbd p hp; omega) (hdup q hq)
  rw [hst]
  omega

/-- C7 witness: a source record matched against a target holding itself and
one other record, with `limit = 1` and `exclude_self`: exactly one match. -/
theorem C7_exclude_self_exact_witness :
    ([dA] ≠ ([] : List Doc)) ∧ ([dA, dB] ≠ ([] : List Doc)) ∧
    1 + 1 ≤ ([dA, dB] : List Doc).length ∧
    (∀ q ∈ [dA], ([dA, dB] : List Doc).countP
      (fun dd => decide (dd.id = q.id)) ≤ 1) ∧
    (eLimitOf (some 1) ([dA, dB] : List Doc).length true = 1 + 1 ∧
     ∀ q' ∈ resOf (matchOp [dA] [dA, dB] (.fn "m" (pwDist sqeuclidean))
        (pwDist sqeuclidean) (some 1) none (some "m") none true false),
       q'.matchList.length = 1) :=
  ⟨List.cons_ne_nil _ _, List.cons_ne_nil _ _, by decide, by decide,
    C7_exclude_self_exact [dA] [dA, dB] "m" "m" sqeuclidean
      (pwDist sqeuclidean) none none false _ 1 (List.cons_ne_nil _ _)
      (List.cons_ne_nil _ _) (by decide) (by decide) rfl⟩

/-! ## Claim C10: online padding -/

/-- When the effective limit is at least the target length, every batch
keeps its whole chunk, so the merged candidates are exactly one per target
record. -/
theorem flatten_contrib_length_eq (B lim : ℕ) (norm : Option (ℚ × ℚ))
    (hB : 0 < B) :
    ∀ (f off : ℕ) (l : List ℚ), l.length ≤ f → l.length ≤ lim →
      ((((batchAux B f off l).map (fun cb =>
        chunkContrib lim norm cb.2 cb.1)).flatten)).length = l.length := by
  intro f
  induction f with
  | zero =>
    intro off l hl _
    rw [List.eq_nil_of_length_eq_zero (Nat.le_zero.1 hl)]
    simp [batchAux]
  | succ f ih =>
    intro off l hl hlim
    cases l with
    | nil => simp [batchAux]
    | cons x l' =>
      rw [batchAux]
      simp only [List.map_cons, List.flatten_cons, List.length_append,
        chunkContrib_length]
      have h1 := ih (off + B) ((x :: l').drop B)
        (by simp only [List.length_drop, List.length_cons] at hl ⊢; omega)
        (by simp only [List.length_drop, List.length_cons] at hlim ⊢; omega)
      rw [h1, List.length_take, List.length_drop]
      simp only [List.length_cons] at hlim ⊢
      omega

/-- When the effective limit is at least the target length, the online row
is the full sorted candidate list followed by the untouched
`(np.inf, 0)` padding slots. -/
theorem online_row_padded (lim B : ℕ) (hB : 0 < B) (norm : Option (ℚ × ℚ))
    (drow : List ℚ) (hm : drow.length ≤ lim) :
    sortP ((sortP ((((batchesOf B drow).map (fun cb =>
        chunkContrib lim norm cb.2 cb.1)).flatten)
      ++ List.replicate lim ((⊤ : Val), 0))).take lim)
    = sortP (((batchesOf B drow).map (fun cb =>
        chunkContrib lim norm cb.2 cb.1)).flatten)
      ++ List.replicate (lim - drow.length) ((⊤ : Val), 0) := by
  have hflen : ((((batchesOf B drow).map (fun cb =>
      chunkContrib lim norm cb.2 cb.1)).flatten)).length = drow.length := by
    unfold batchesOf
    exact flatten_contrib_length_eq B lim norm hB drow.length 0 drow
      (le_refl _) hm
  have hfin : ∀ z ∈ ((batchesOf B drow).map (fun cb =>
      chunkContrib lim norm cb.2 cb.1)).flatten, leP z ((⊤ : Val), 0) := by
    intro z hz
    obtain ⟨c, hc, hzc⟩ := List.mem_flatten.1 hz
    obtain ⟨cb, hcb, rfl⟩ := List.mem_map.1 hc
    obtain ⟨w, j, rfl⟩ := mem_chunkContrib_lift lim norm cb.2 cb.1 z hzc
    exact Or.inl (WithTop.coe_lt_top w)
  have hsrt : sortP (((batchesOf B drow).map (fun cb =>
      chunkContrib lim norm cb.2 cb.1)).flatten
        ++ List.replicate lim ((⊤ : Val), 0))
      = sortP (((batchesOf B drow).map (fun cb =>
        chunkContrib lim norm cb.2 cb.1)).flatten)
        ++ List.replicate lim ((⊤ : Val), 0) :=
    sortP_append_of_le
      (fun x hx y hy => by rw [List.eq_of_mem_replicate hy]; exact hfin x hx)
      (List.pairwise_replicate.2 (Or.inr (Or.inr ⟨rfl, le_refl _⟩)))
  rw [hsrt, List.take_append_eq_append_take,
    List.take_of_length_le (by rw [sortP_length, hflen]; exact hm),
    sortP_length, hflen, List.take_replicate,
    min_eq_left (Nat.sub_le lim drow.length)]
  refine sortP_eq_self (List.pairwise_append.2
    ⟨sortP_sorted _,
     List.pairwise_replicate.2 (Or.inr (Or.inr ⟨rfl, le_refl _⟩)), ?_⟩)
  intro x hx y hy
  rw [List.eq_of_mem_replicate hy]
  exact hfin x ((sortP_perm _).mem_iff.1 hx)

/-- Without self-exclusion the assembly attaches every candidate of the
row, in order, until the stop limit. -/
theorem buildMatches_no_exclude (lids : List String) (rhv : List Doc)
    (mName : String) (stop : ℕ) (oi : Bool) (q : Doc) :
    ∀ (row : List (Val × ℕ)) (num : ℕ), num < stop →
      buildMatches lids rhv mName stop false oi q row num
        = (row.take (stop - num)).map (fun p =>
            (detachIfShared lids (resolveDoc rhv oi p.2)).withScore mName p.1) := by
  intro row
  induction row with
  | nil => intro num hnum; simp [buildMatches]
  | cons pr rest ih =>
    intro num hnum
    obtain ⟨dv, i⟩ := pr
    have hstep : buildMatches lids rhv mName stop false oi q ((dv, i) :: rest) num
        = if (detachIfShared lids (resolveDoc rhv oi i)).id = q.id
            ∧ (false : Bool) = true then
            buildMatches lids rhv mName stop false oi q rest num
          else if num + 1 ≥ stop then
            [(detachIfShared lids (resolveDoc rhv oi i)).withScore mName dv]
          else (detachIfShared lids (resolveDoc rhv oi i)).withScore mName dv
            :: buildMatches lids rhv mName stop false oi q rest (num + 1) := rfl
    rw [hstep, if_neg (fun hc => Bool.false_ne_true hc.2)]
    by_cases hstop2 : num + 1 ≥ stop
    · rw [if_pos hstop2]
      have h1 : stop - num = 1 := by omega
      rw [h1]
      rfl
    · rw [if_neg hstop2, ih (num + 1) (by omega)]
      have h2 : stop - num = (stop - (num + 1)) + 1 := by omega
      rw [h2, List.take_succ_cons, List.map_cons]

/-- C10: with a batch size given and the limit exceeding the target size,
every online row has exactly `limit` columns, the unfilled slots hold
`(+inf, 0)`, and the assembly (without self-exclusion) attaches those
placeholder slots as ordinary matches referencing the target record at
position 0, scored `+inf`. -/
theorem C10_online_padding (lhv rhv : List Doc) (fname nm : String)
    (d : List ℚ → List ℚ → ℚ) (nc : Mat → Mat → Mat)
    (norm : Option (ℚ × ℚ)) (B : ℕ) (res : List Doc) (L : ℕ)
    (hl : lhv ≠ []) (hr : rhv ≠ []) (hm : rhv.length < L)
    (h : matchOp lhv rhv (.fn fname (pwDist d)) nc (some (L : ℤ)) norm
      (some nm) (some (B : ℤ)) false false = .ok res) :
    (∀ row ∈ matchOnline (pwDist d) (lhv.map Doc.emb) (rhv.map Doc.emb) L norm B,
      row.length = L ∧ ∀ k, rhv.length ≤ k → k < L →
        row.getD k ((0 : Val), 0) = ((⊤ : Val), 0))
    ∧ ∀ q' ∈ res, q'.matchList.length = L ∧
        ∀ k, rhv.length ≤ k → k < L →
          (q'.matchList.getD k dfltDoc).id = (rhv.getD 0 dfltDoc).id ∧
          scoreOf (q'.matchList.getD k dfltDoc) nm = some ⊤ := by
  obtain ⟨hv1, hv2, hres⟩ := matchOp_fn_ok h hl hr
  have hL : 0 < L := by
    simp only [validatePos, decide_eq_true_eq] at hv1
    exact_mod_cast hv1
  have hB : 0 < B := by
    simp only [validatePos, decide_eq_true_eq] at hv2
    exact_mod_cast hv2
  have hmatcher : ∀ row ∈ matchOnline (pwDist d) (lhv.map Doc.emb)
      (rhv.map Doc.emb) L norm B,
      row.length = L ∧ ∀ k, rhv.length ≤ k → k < L →
        row.getD k ((0 : Val), 0) = ((⊤ : Val), 0) := by
    intro row hrow
    obtain ⟨i, hi, hri⟩ := List.mem_iff_getElem.1 hrow
    have hshape : ∀ yb ∈ batchesOf B (rhv.map Doc.emb),
        (pwDist d (lhv.map Doc.emb) yb.1).length = (lhv.map Doc.emb).length :=
      fun yb _ => List.length_map _ _
    have hixs : i < (lhv.map Doc.emb).length := by
      rw [← matchOnline_length (pwDist d) _ _ L norm B hshape]
      exact hi
    have hrd : row = (matchOnline (pwDist d) (lhv.map Doc.emb)
        (rhv.map Doc.emb) L norm B).getD i [] := by
      rw [List.getD_eq_getElem _ _ hi, hri]
    rw [matchOnline_pw_getD d _ _ L B norm i hixs] at hrd
    have hdlen : ((rhv.map Doc.emb).map
        (d ((lhv.map Doc.emb).getD i []))).length = rhv.length := by
      rw [List.length_map, List.length_map]
    rw [online_row_padded L B hB norm _ (by rw [hdlen]; omega)] at hrd
    have hflen : (sortP (((batchesOf B ((rhv.map Doc.emb).map
        (d ((lhv.map Doc.emb).getD i [])))).map (fun cb =>
          chunkContrib L norm cb.2 cb.1)).flatten)).length = rhv.length := by
      rw [sortP_length]
      have h2 := flatten_contrib_length_eq B L norm hB
        ((rhv.map Doc.emb).map (d ((lhv.map Doc.emb).getD i []))).length 0
        ((rhv.map Doc.emb).map (d ((lhv.map Doc.emb).getD i [])))
        (le_refl _) (by rw [hdlen]; omega)
      unfold batchesOf
      rw [h2, hdlen]
    have hrowlen : row.length = L := by
      rw [hrd, List.length_append, List.length_replicate, hflen, hdlen]
      omega
    refine ⟨hrowlen, ?_⟩
    intro k hk1 hk2
    rw [hrd, List.getD_append_right _ _ _ _ (by rw [hflen]; exact hk1),
      List.getD_eq_getElem _ _
        (by rw [List.length_replicate, hflen, hdlen]; omega)]
    exact List.getElem_replicate _ _
  refine ⟨hmatcher, ?_⟩
  subst hres
  intro q' hq'
  rw [show Option.map Int.toNat (some ((L : ℕ) : ℤ)) = some L by simp,
    show Option.map Int.toNat (some ((B : ℕ) : ℤ)) = some B by simp] at hq'
  obtain ⟨q, row, hq, hrow, rfl⟩ := mem_matchBody hq'
  rw [Doc.matchList_setMatches]
  have hrow2 : row ∈ matchOnline (pwDist d) (lhv.map Doc.emb)
      (rhv.map Doc.emb) L norm B := hrow
  obtain ⟨hrlen, hrpad⟩ := hmatcher row hrow2
  have hstop : stopOf (some L) rhv.length false = L := rfl
  rw [buildMatches_no_exclude (ids lhv) rhv (Option.getD (some nm) fname)
    (stopOf (some L) rhv.length false) false q row 0 (by rw [hstop]; exact hL)]
  have htk : row.take (stopOf (some L) rhv.length false - 0) = row := by
    rw [hstop, Nat.sub_zero]
    exact List.take_of_length_le (le_of_eq hrlen)
  rw [htk]
  constructor
  · rw [List.length_map]
    exact hrlen
  · intro k hk1 hk2
    have hk3 : k < (row.map (fun p =>
        (detachIfShared (ids lhv) (resolveDoc rhv false p.2)).withScore
          (Option.getD (some nm) fname) p.1)).length := by
      rw [List.length_map, hrlen]
      exact hk2
    rw [List.getD_eq_getElem _ _ hk3, List.getElem_map]
    have hkr : row[k] = ((⊤ : Val), 0) := by
      have h3 := hrpad k hk1 hk2
      rw [List.getD_eq_getElem _ _ (by rw [hrlen]; exact hk2)] at h3
      exact h3
    rw [hkr]
    exact ⟨by rw [Doc.id_withScore, detachIfShared_id, resolveDoc_id],
      scoreOf_withScore _ _ _⟩

/-- C10 witness: one source record against a single target record with
`limit = 2` and `batch_size = 1`: the online row is padded and the second
attached match references target position 0 with an infinite score. -/
theorem C10_online_padding_witness :
    ([dA] ≠ ([] : List Doc)) ∧ ([dB] ≠ ([] : List Doc)) ∧
    ([dB] : List Doc).length < 2 ∧
    ((∀ row ∈ matchOnline (pwDist sqeuclidean) ([dA].map Doc.emb)
        ([dB].map Doc.emb) 2 none 1,
      row.length = 2 ∧ ∀ k, ([dB] : List Doc).length ≤ k → k < 2 →
        row.getD k ((0 : Val), 0) = ((⊤ : Val), 0))
    ∧ ∀ q' ∈ resOf (matchOp [dA] [dB] (.fn "m" (pwDist sqeuclidean))
        (pwDist sqeuclidean) (some 2) none (some "m") (some 1) false false),
        q'.matchList.length = 2 ∧
        ∀ k, ([dB] : List Doc).length ≤ k → k < 2 →
          (q'.matchList.getD k dfltDoc).id = (([dB] : List Doc).getD 0 dfltDoc).id ∧
          scoreOf (q'.matchList.getD k dfltDoc) "m" = some ⊤) :=
  ⟨List.cons_ne_nil _ _, List.cons_ne_nil _ _, by decide,
    C10_online_padding [dA] [dB] "m" "m" sqeuclidean (pwDist sqeuclidean)
      none 1 _ 2 (List.cons_ne_nil _ _) (List.cons_ne_nil _ _) (by decide) rfl⟩

/-! ## Claims C3, C4, C8, C9 -/

/-- C3 counterexample: source `[A]` and target `[A, T]` share the record
`"A"`, yet the attached match for `T` (whose id is not in the source) keeps
its non-empty pre-existing nested match list, so not every attached match
has an empty nested list. -/
theorem C3_counterexample :
    "A" ∈ ids [dA] ∧ "A" ∈ ids [dA, dT] ∧
      (resOf (matchOp [dA] [dA, dT] (.name "sqeuclidean") (pwDist sqeuclidean)
        (some 2) none none none false false)).map
          (fun q => q.matchList.map (fun m => m.matchList.length)) = [[0, 1]] :=
  ⟨by decide, by decide, by decide⟩

/-- C3 (amended): in every successful call on non-empty collections, every
attached match whose id is present in the source collection is an
independent detached copy whose own match list has been cleared (candidates
not present in the source are attached as-is and may keep pre-existing
nested matches). -/
theorem C3_shared_candidates_detached (lhv rhv : List Doc) (metric : MetricArg)
    (nc : Mat → Mat → Mat) (limit : Option ℤ) (norm : Option (ℚ × ℚ))
    (mn : Option String) (bs : Option ℤ) (es oi : Bool) (res : List Doc)
    (hl : lhv ≠ []) (hr : rhv ≠ [])
    (h : matchOp lhv rhv metric nc limit norm mn bs es oi = .ok res) :
    ∀ q' ∈ res, ∀ m ∈ q'.matchList, m.id ∈ ids lhv → m.matchList = [] := by
  obtain ⟨cdist, dn, rfl⟩ := matchOp_ok_cases h hl hr
  intro q' hq' m hm hmid
  obtain ⟨q, row, hq, hrow, rfl⟩ := mem_matchBody hq'
  rw [Doc.matchList_setMatches] at hm
  obtain ⟨dv, i, hmem, rfl, hno⟩ := mem_buildMatches hm
  rw [Doc.id_withScore, detachIfShared_id] at hmid
  rw [Doc.matchList_withScore]
  unfold detachIfShared
  rw [if_pos hmid]
  exact Doc.matchList_popMatches _

/-- C3 witness: a concrete successful call together with the detachment
property at that call. -/
theorem C3_shared_candidates_detached_witness :
    ([dA] ≠ ([] : List Doc)) ∧ ([dA, dT] ≠ ([] : List Doc)) ∧
    (∀ q' ∈ resOf (matchOp [dA] [dA, dT] (.name "sqeuclidean")
        (pwDist sqeuclidean) (some 2) none none none false false),
      ∀ m ∈ q'.matchList, m.id ∈ ids [dA] → m.matchList = []) :=
  ⟨List.cons_ne_nil _ _, List.cons_ne_nil _ _,
    C3_shared_candidates_detached [dA] [dA, dT] (.name "sqeuclidean")
      (pwDist sqeuclidean) (some 2) none none none false false _
      (List.cons_ne_nil _ _) (List.cons_ne_nil _ _) rfl⟩

/-- C4 counterexample: with `exclude_self=True` but an empty target the call
is a no-op, so a pre-existing self-referencing match in the source record
survives the call. -/
theorem C4_counterexample :
    matchOp [dSelfRef] [] (.name "sqeuclidean") (pwDist sqeuclidean) (some 1)
      none none none true false = .ok [dSelfRef] ∧
    Doc.id dSelfRef ∈ matchIds dSelfRef :=
  ⟨rfl, by decide⟩

/-- C4 (amended): for every call with `exclude_self=True` on non-empty
source and target collections, no rebuilt match list contains a match whose
id equals the record's own id (empty collections make the call a no-op that
can keep pre-existing self-references). -/
theorem C4_exclude_self_no_self_match (lhv rhv : List Doc) (metric : MetricArg)
    (nc : Mat → Mat → Mat) (limit : Option ℤ) (norm : Option (ℚ × ℚ))
    (mn : Option String) (bs : Option ℤ) (oi : Bool) (res : List Doc)
    (hl : lhv ≠ []) (hr : rhv ≠ [])
    (h : matchOp lhv rhv metric nc limit norm mn bs true oi = .ok res) :
    ∀ q' ∈ res, ∀ m ∈ q'.matchList, m.id ≠ q'.id := by
  obtain ⟨cdist, dn, rfl⟩ := matchOp_ok_cases h hl hr
  intro q' hq' m hm
  obtain ⟨q, row, hq, hrow, rfl⟩ := mem_matchBody hq'
  rw [Doc.matchList_setMatches] at hm
  obtain ⟨dv, i, hmem, rfl, hno⟩ := mem_buildMatches hm
  rw [Doc.id_withScore, Doc.id_setMatches]
  intro heq
  exact hno ⟨heq, rfl⟩

/-- C4 witness: a concrete call of a collection matched against itself with
`exclude_self=True`, and the no-self-match property at that call. -/
theorem C4_exclude_self_no_self_match_witness :
    ([dA, dB] ≠ ([] : List Doc)) ∧
    (∀ q' ∈ resOf (matchOp [dA, dB] [dA, dB] (.name "sqeuclidean")
        (pwDist sqeuclidean) (some 1) none none none true false),
      ∀ m ∈ q'.matchList, m.id ≠ q'.id) :=
  ⟨List.cons_ne_nil _ _,
    C4_exclude_self_no_self_match [dA, dB] [dA, dB] (.name "sqeuclidean")
      (pwDist sqeuclidean) (some 1) none none none false _
      (List.cons_ne_nil _ _) (List.cons_ne_nil _ _) rfl⟩

/-- C8 counterexample: with an empty source and an invalid metric the call
returns the no-op `ok` instead of raising, because the empty-collection
check precedes the metric type check. -/
theorem C8_counterexample :
    matchOp [] [dA] .invalid (pwDist sqeuclidean) (some 1) none none none
      false false = .ok [] := rfl

/-- C8 (amended): `limit <= 0` and a given `batch_size <= 0` always raise,
in that order, before any other processing; an invalid metric raises only
when both collections are non-empty (the empty no-op returns first).  In
the functional model an error result entails that no source record is
touched. -/
theorem C8_validation_errors :
    (∀ (lhv rhv : List Doc) (metric : MetricArg) (nc : Mat → Mat → Mat)
      (l : ℤ) (norm : Option (ℚ × ℚ)) (mn : Option String) (bs : Option ℤ)
      (es oi : Bool), l ≤ 0 →
      matchOp lhv rhv metric nc (some l) norm mn bs es oi =
        .error "limit must be larger than 0") ∧
    (∀ (lhv rhv : List Doc) (metric : MetricArg) (nc : Mat → Mat → Mat)
      (limit : Option ℤ) (norm : Option (ℚ × ℚ)) (mn : Option String)
      (b : ℤ) (es oi : Bool), validatePos limit = true → b ≤ 0 →
      matchOp lhv rhv metric nc limit norm mn (some b) es oi =
        .error "batch_size must be larger than 0") ∧
    (∀ (lhv rhv : List Doc) (nc : Mat → Mat → Mat) (limit : Option ℤ)
      (norm : Option (ℚ × ℚ)) (mn : Option String) (bs : Option ℤ)
      (es oi : Bool), validatePos limit = true → validatePos bs = true →
      lhv ≠ [] → rhv ≠ [] →
      matchOp lhv rhv .invalid nc limit norm mn bs es oi =
        .error "metric must be either string or a 2-arity function") := by
  refine ⟨?_, ?_, ?_⟩
  · intro lhv rhv metric nc l norm mn bs es oi hle
    have hv : validatePos (some l) = false := by
      simp only [validatePos, decide_eq_false_iff_not]
      omega
    unfold matchOp
    rw [if_pos hv]
  · intro lhv rhv metric nc limit norm mn b es oi hval hle
    have hv : validatePos (some b) = false := by
      simp only [validatePos, decide_eq_false_iff_not]
      omega
    unfold matchOp
    rw [if_neg (by simp [hval]), if_pos hv]
  · intro lhv rhv nc limit norm mn bs es oi hval1 hval2 hl hr
    have hemp : ¬(lhv.isEmpty ∨ rhv.isEmpty) := by
      simp only [List.isEmpty_iff]
      push_neg
      exact ⟨hl, hr⟩
    unfold matchOp
    rw [if_neg (by simp [hval1]), if_neg (by simp [hval2]), if_neg hemp]

/-- C8 witness: the three raising behaviours at concrete inputs. -/
theorem C8_validation_errors_witness :
    matchOp [dA] [dA] (.name "sqeuclidean") (pwDist sqeuclidean) (some 0)
      none none none false false = .error "limit must be larger than 0" ∧
    matchOp [dA] [dA] (.name "sqeuclidean") (pwDist sqeuclidean) (some 1)
      none none (some 0) false false = .error "batch_size must be larger than 0" ∧
    matchOp [dA] [dA] .invalid (pwDist sqeuclidean) (some 1)
      none none none false false =
      .error "metric must be either string or a 2-arity function" :=
  ⟨C8_validation_errors.1 [dA] [dA] (.name "sqeuclidean") (pwDist sqeuclidean)
      0 none none none false false (by decide),
   C8_validation_errors.2.1 [dA] [dA] (.name "sqeuclidean") (pwDist sqeuclidean)
      (some 1) none none 0 false false (by decide) (by decide),
   C8_validation_errors.2.2 [dA] [dA] (pwDist sqeuclidean) (some 1)
      none none none false false (by decide) (by decide)
      (List.cons_ne_nil _ _) (List.cons_ne_nil _ _)⟩

/-- C9 counterexample: a call with an empty source but `limit = 0` raises
instead of being a no-op, because `limit` validation precedes the
empty-collection check. -/
theorem C9_counterexample :
    matchOp [] [dA] (.name "sqeuclidean") (pwDist sqeuclidean) (some 0) none
      none none false false = .error "limit must be larger than 0" := rfl

/-- C9 (amended): whenever `limit` and `batch_size` pass validation and the
source or the target collection is empty, the call is a no-op: it returns
without raising and leaves the source collection (hence every match list)
unchanged. -/
theorem C9_empty_noop (lhv rhv : List Doc) (metric : MetricArg)
    (nc : Mat → Mat → Mat) (limit : Option ℤ) (norm : Option (ℚ × ℚ))
    (mn : Option String) (bs : Option ℤ) (es oi : Bool)
    (hval1 : validatePos limit = true) (hval2 : validatePos bs = true)
    (he : lhv = [] ∨ rhv = []) :
    matchOp lhv rhv metric nc limit norm mn bs es oi = .ok lhv := by
  have hcond : lhv.isEmpty ∨ rhv.isEmpty := by
    rcases he with rfl | rfl
    · exact Or.inl rfl
    · exact Or.inr rfl
  unfold matchOp
  rw [if_neg (by simp [hval1]), if_neg (by simp [hval2]), if_pos hcond]

/-- C9 witness: a concrete empty-target no-op. -/
theorem C9_empty_noop_witness :
    validatePos (some 3) = true ∧ validatePos none = true ∧
    matchOp [dSelfRef] [] (.name "sqeuclidean") (pwDist sqeuclidean) (some 3)
      none none none false false = .ok [dSelfRef] :=
  ⟨by decide, by decide,
    C9_empty_noop [dSelfRef] [] (.name "sqeuclidean") (pwDist sqeuclidean)
      (some 3) none none none false false (by decide) (by decide) (Or.inr rfl)⟩

end JinaMatch
